import Mathlib

/-!
Shallow embedding of the breakpoint-evidence core of the mavis repository.

Sources embedded here:
  * src/mavis/validate/evidence.py  (GenomeEvidence, TranscriptomeEvidence)
  * src/mavis/annotate/genomic.py   (Exon, UsTranscript and its coordinate
    conversions and splicing-pattern generator)

The repository's interval, breakpoint, constants, splicing and pairing
modules are not under src/; the few definitions taken from them are
modelled from the spec and are marked as such in their doc comments.

Python integers are embedded as Int.  Python exceptions are embedded as
an Except value with a PyErr error code.  Python lists are Lean lists;
a dict built with distinct keys is embedded as an association list in
insertion order.
-/

namespace Mavis

/-! # Definitions -/

/-- Orientation constants (mavis.constants.ORIENT: LEFT, RIGHT and the
not-specified wildcard NS).  Modelled from the spec: the constants module
is not under src/. -/
inductive ORIENT where
  | LEFT
  | RIGHT
  | NS
deriving DecidableEq, Repr

/-- Strand constants (mavis.constants.STRAND: POS `+`, NEG `-` and the
not-specified wildcard NS).  Modelled from the spec: the constants module
is not under src/. -/
inductive STRAND where
  | POS
  | NEG
  | NS
deriving DecidableEq, Repr

deriving instance DecidableEq for Except

/-- Error codes for the Python exceptions raised by the embedded code. -/
inductive PyErr where
  | indexError
  | notSpecifiedError
  | typeError
  | assertionError
deriving DecidableEq, Repr

/-- Closed integer interval.  Modelled from the spec: mavis/interval.py is
not under src/.  The spec's data model: integer pair `[start, end]`.
The Python attribute `end` is a Lean keyword, so it is named `stop` here. -/
structure Interval where
  start : Int
  stop : Int
deriving DecidableEq, Repr

/-- `len(interval)` = end - start + 1 (spec: length of a closed interval). -/
def intervalLen (i : Interval) : Int := i.stop - i.start + 1

/-- Interval union as used by the window builder (`window1 | temp` in
evidence.py).  Modelled from the spec and its use in evidence.py: the
spanning interval of the two operands. -/
def intervalUnion (a b : Interval) : Interval :=
  ⟨min a.start b.start, max a.stop b.stop⟩

/-- Containment test `i.start <= x <= i.end`. -/
def intervalContains (i : Interval) (x : Int) : Bool :=
  decide (i.start ≤ x) && decide (x ≤ i.stop)

/-- Overlap (non-empty intersection) test, embedding the truthiness of
`a & b` for the modelled Interval class. -/
def intervalOverlaps (a b : Interval) : Bool :=
  decide (max a.start b.start ≤ min a.stop b.stop)

/-- Exon (mavis/annotate/genomic.py, class Exon).  Only the fields the
claims touch are embedded: the genomic span and the two intact flags
(`intact_start_splice` / `intact_end_splice`, which the constructor stores
on `start_splice_site.intact` / `end_splice_site.intact`). -/
structure Exon where
  start : Int
  stop : Int
  intactStart : Bool := true
  intactStop : Bool := true
deriving DecidableEq, Repr

def exonLen (e : Exon) : Int := e.stop - e.start + 1

/-- Unspliced transcript (mavis/annotate/genomic.py, class UsTranscript).
`exons` embeds `self.exons` (sorted by start at construction).  `strand`
embeds the value returned by `get_strand()` (the transcript's strand,
falling back to the gene's; STRAND.NS when neither is given).  `spliced`
embeds `self.spliced_transcripts` by their splicing patterns; it is only
used by the embedding of `compute_exonic_distance`. -/
structure UsTranscript where
  exons : List Exon
  strand : STRAND
  spliced : List (List Int) := []
deriving DecidableEq, Repr

/-- `self.start = min([e[0] for e in self.exons])` (genomic.py line 279). -/
def tStart (t : UsTranscript) : Int :=
  match t.exons.map (fun e => e.start) with
  | [] => 0
  | x :: xs => xs.foldl min x

/-- `self.end = max([e[1] for e in self.exons])` (genomic.py line 280). -/
def tStop (t : UsTranscript) : Int :=
  match t.exons.map (fun e => e.stop) with
  | [] => 0
  | x :: xs => xs.foldl max x

/-- Breakpoint (spec data model; mavis/breakpoint.py is not under src/).
Modelled from the spec: reference name, interval, orientation, strand. -/
structure Breakpoint where
  chrName : String
  start : Int
  stop : Int
  orient : ORIENT
  strand : STRAND
deriving DecidableEq, Repr

/-! ## Sorting (embedding of Python `sorted`) with its basic lemmas -/

/-- Insert into a sorted list, keeping elements `x` is not `le`-below in
front (stable insertion, matching Python's stable sort on the orders used
here). -/
def insertBy (le : α → α → Bool) (x : α) : List α → List α
  | [] => [x]
  | y :: ys => if le x y then x :: y :: ys else y :: insertBy le x ys

/-- Insertion sort; embedding of Python `sorted` with key order `le`. -/
def sortBy (le : α → α → Bool) : List α → List α
  | [] => []
  | x :: xs => insertBy le x (sortBy le xs)

/-- Embedding of Python `sorted` on a list of ints. -/
def sortInts : List Int → List Int := sortBy (fun a b => decide (a ≤ b))

/-- `itertools.product` of two lists, in iteration order. -/
def listProd (xs : List α) (ys : List β) : List (α × β) :=
  xs.flatMap (fun x => ys.map (fun y => (x, y)))

/-! ## Evidence windows (src/mavis/validate/evidence.py) -/

/-- `GenomeEvidence._generate_window` (evidence.py lines 84-105):
start/end first widen by the fragment size plus call error; a LEFT
orientation re-anchors the end at `end + call_error + read_length - 1`,
a RIGHT orientation re-anchors the start symmetrically; both returned
edges are clamped with `max` against 1. -/
def genomeGenerateWindow (b : Breakpoint) (frag ce rl : Int) : Interval :=
  let s0 := b.start - frag - ce + 1
  let e0 := b.stop + frag + ce - 1
  match b.orient with
  | ORIENT.LEFT => ⟨max 1 s0, max (b.stop + ce + rl - 1) 1⟩
  | ORIENT.RIGHT => ⟨max 1 (b.start - ce - rl + 1), max e0 1⟩
  | ORIENT.NS => ⟨max 1 s0, max e0 1⟩

/-- The genome-protocol inner window (evidence.py lines 30-39):
`Interval(max([start - call_error - read_length + 1, 1]),
 end + call_error + read_length - 1)`. -/
def genomeInnerWindow (b : Breakpoint) (ce rl : Int) : Interval :=
  ⟨max (b.start - ce - rl + 1) 1, b.stop + ce + rl - 1⟩

/-- State update of `TranscriptomeEvidence.traverse_exonic_distance` before
the exon loop, LEFT direction (evidence.py lines 219-231).  State is
`(pos, distance)`. -/
def traverseLeftInit (start distance : Int) (t : UsTranscript) : Int × Int :=
  if start > tStop t then
    let available := start - tStop t
    if available ≤ distance then (tStop t + 1, distance - available)
    else (start - distance + 1, 0)
  else if start < tStart t then (start - distance + 1, 0)
  else (start, distance)

/-- One step of the LEFT exon loop (evidence.py lines 233-253), run over
`ust.exons[::-1]`. -/
def traverseLeftExon (start : Int) (st : Int × Int) (ex : Exon) : Int × Int :=
  if st.2 = 0 then st
  else if ex.start ≤ start ∧ start ≤ ex.stop then
    let available := start - ex.start + 1
    if available ≤ st.2 then (ex.start, st.2 - available)
    else (start - st.2 + 1, 0)
  else if start < ex.start then st
  else
    let available := exonLen ex
    if available ≤ st.2 then (ex.start, st.2 - available)
    else (ex.stop - st.2 + 1, 0)

/-- Per-transcript LEFT traversal result (evidence.py lines 219-255). -/
def traverseLeft (start distance : Int) (t : UsTranscript) : Int :=
  let st := t.exons.reverse.foldl (traverseLeftExon start)
    (traverseLeftInit start distance t)
  if st.2 > 0 then tStart t - st.2 else st.1

/-- State update before the exon loop, RIGHT direction (evidence.py
lines 256-267). -/
def traverseRightInit (start distance : Int) (t : UsTranscript) : Int × Int :=
  if start > tStop t then (start + distance - 1, 0)
  else if start < tStart t then
    let available := tStart t - start
    if available ≤ distance then (tStart t - 1, distance - available)
    else (start + distance - 1, 0)
  else (start, distance)

/-- One step of the RIGHT exon loop (evidence.py lines 268-288), run over
`ust.exons` in order. -/
def traverseRightExon (start : Int) (st : Int × Int) (ex : Exon) : Int × Int :=
  if st.2 = 0 then st
  else if ex.start ≤ start ∧ start ≤ ex.stop then
    let available := ex.stop - start + 1
    if available ≤ st.2 then (ex.stop, st.2 - available)
    else (start + st.2 - 1, 0)
  else if start < ex.start then
    let available := exonLen ex
    if available ≤ st.2 then (ex.stop, st.2 - available)
    else (ex.start + st.2 - 1, 0)
  else st

/-- Per-transcript RIGHT traversal result (evidence.py lines 256-290). -/
def traverseRight (start distance : Int) (t : UsTranscript) : Int :=
  let st := t.exons.foldl (traverseRightExon start)
    (traverseRightInit start distance t)
  if st.2 > 0 then tStop t + st.2 else st.1

/-- `TranscriptomeEvidence.traverse_exonic_distance` (evidence.py lines
200-293): the pure-genomic fallback position is always in the candidate
list; each transcript adds one candidate; the result spans the minimum and
maximum candidate. -/
def traverseExonicDistance (start distance : Int) (direction : ORIENT)
    (transcripts : List UsTranscript) : Interval :=
  let isLeft := decide (direction = ORIENT.LEFT)
  let base := if isLeft then start - distance + 1 else start + distance - 1
  let others := transcripts.map (fun ust =>
    if isLeft then traverseLeft start distance ust
    else traverseRight start distance ust)
  ⟨others.foldl min base, others.foldl max base⟩

/-- The transcriptome-protocol inner window of one breakpoint
(evidence.py lines 138-151): union of the LEFT traversal from the
breakpoint start and the RIGHT traversal from the breakpoint end, both at
distance `call_error + read_length - 1`. -/
def transcriptomeInnerWindow (b : Breakpoint) (ce rl : Int)
    (ts : List UsTranscript) : Interval :=
  let tgt := ce + rl - 1
  let temp := traverseExonicDistance b.start tgt ORIENT.LEFT ts
  let window := traverseExonicDistance b.stop tgt ORIENT.RIGHT ts
  intervalUnion window temp

/-- `TranscriptomeEvidence._generate_window` (evidence.py lines 337-369):
start from the genome window, convert its two extension amounts to exonic
distances and re-project; with no overlapping transcripts the genome
window is returned unmodified. -/
def transcriptomeGenerateWindow (b : Breakpoint) (ts : List UsTranscript)
    (rl ce frag : Int) : Interval :=
  let window := genomeGenerateWindow b frag ce rl
  let tgtLeft := b.start - window.start + 1
  let tgtRight := window.stop - b.stop + 1
  match ts with
  | [] => window
  | _ :: _ =>
    intervalUnion (traverseExonicDistance b.start tgtLeft ORIENT.LEFT ts)
      (traverseExonicDistance b.stop tgtRight ORIENT.RIGHT ts)

/-! ## Splicing patterns (src/mavis/annotate/genomic.py, generate_splicing_patterns) -/

/-- Splice-site class.  The source uses the integer literals `donor = 3`
and `acceptor = 5` (genomic.py lines 319-320). -/
inductive SiteTy where
  | donor
  | acceptor
deriving DecidableEq, Repr

/-- The integer the source uses for the class, for Python tuple ordering. -/
def tyVal : SiteTy → Int
  | SiteTy.donor => 3
  | SiteTy.acceptor => 5

/-- One `(position, intact, site_type)` triple of the `pattern` list built
by `generate_splicing_patterns` (genomic.py lines 324-328). -/
structure Site where
  pos : Int
  intact : Bool
  ty : SiteTy
deriving DecidableEq, Repr

/-- Order used by `sorted(self.exons, key=lambda x: x[0])`
(genomic.py line 315). -/
def exonLeStart (a b : Exon) : Bool := decide (a.start ≤ b.start)

/-- Site for an exon's genomic start (`exons[i].start` with
`start_splice_site.intact`; donor when the transcript strand is negative,
acceptor otherwise — genomic.py lines 326, 328). -/
def startSite (reverse : Bool) (e : Exon) : Site :=
  ⟨e.start, e.intactStart, if reverse then SiteTy.donor else SiteTy.acceptor⟩

/-- Site for an exon's genomic end (`exons[i].end` with
`end_splice_site.intact`; acceptor when reverse, donor otherwise —
genomic.py lines 324, 327). -/
def stopSite (reverse : Bool) (e : Exon) : Site :=
  ⟨e.stop, e.intactStop, if reverse then SiteTy.acceptor else SiteTy.donor⟩

/-- Sites of every exon after the first: start and end for each middle
exon, start only for the last (genomic.py lines 325-328). -/
def buildSitesAux (reverse : Bool) : List Exon → List Site
  | [] => []
  | [e] => [startSite reverse e]
  | e :: e' :: rest =>
    startSite reverse e :: stopSite reverse e :: buildSitesAux reverse (e' :: rest)

/-- The full `pattern` list of `(pos, intact, type)` triples in genomic
order (genomic.py lines 324-328): first exon contributes only its end,
middle exons both boundaries, the last exon only its start. -/
def buildSites (reverse : Bool) : List Exon → List Site
  | [] => []
  | e :: rest => stopSite reverse e :: buildSitesAux reverse rest

/-- Python tuple order on the filtered `(pos, type)` pairs. -/
def siteKeyLt (a b : Site) : Bool :=
  decide (a.pos < b.pos) || (decide (a.pos = b.pos) && decide (tyVal a.ty < tyVal b.ty))

def siteKeyLe (a b : Site) : Bool :=
  decide (a.pos < b.pos) || (decide (a.pos = b.pos) && decide (tyVal a.ty ≤ tyVal b.ty))

/-- Lexicographic order on `((pos, ty), (pos, ty))` pairs: the order used
by `sorted(itertools.product(donors, acceptors))` (genomic.py line 355). -/
def sitePairLe (x y : Site × Site) : Bool :=
  siteKeyLt x.1 y.1 || ((x.1.pos == y.1.pos && tyVal x.1.ty == tyVal y.1.ty) && siteKeyLe x.2 y.2)

/-- The `while i < len(pattern)` loop of `generate_splicing_patterns`
(genomic.py lines 344-364) as recursion on the remaining site list: at a
donor site, take the maximal run of donors, then the maximal run of
acceptors after it; every (donor, acceptor) product pair extends every
surviving candidate pattern (kept unchanged when the product is empty);
then continue past both runs.  The source raises an AssertionError when
positioned at an acceptor; that branch is unreachable because the leading
acceptors are skipped before the loop and runs are maximal. -/
def expandBlocks : List Site → List (List Int) → List (List Int)
  | [], sets => sets
  | s :: rest, sets =>
    match s.ty with
    | SiteTy.acceptor => sets
    | SiteTy.donor =>
      -- in this branch the head is a donor, so the maximal donor run of
      -- `s :: rest` is `s` followed by the donor run of `rest`
      let donors := s :: rest.takeWhile (fun x => x.ty == SiteTy.donor)
      let rest1 := rest.dropWhile (fun x => x.ty == SiteTy.donor)
      let acceptors := rest1.takeWhile (fun x => x.ty == SiteTy.acceptor)
      let rest2 := rest1.dropWhile (fun x => x.ty == SiteTy.acceptor)
      let temp := (sortBy sitePairLe (listProd donors acceptors)).flatMap
        (fun da => sets.map (fun cur => cur ++ [da.1.pos, da.2.pos]))
      expandBlocks rest2 (if temp.isEmpty then sets else temp)
  termination_by sites _ => sites.length
  decreasing_by
    calc ((rest.dropWhile (fun x => x.ty == SiteTy.donor)).dropWhile
            (fun x => x.ty == SiteTy.acceptor)).length
        ≤ (rest.dropWhile (fun x => x.ty == SiteTy.donor)).length :=
          List.Sublist.length_le (List.dropWhile_sublist _)
      _ ≤ rest.length := List.Sublist.length_le (List.dropWhile_sublist _)
      _ < (s :: rest).length := by simp

/-- `UsTranscript.generate_splicing_patterns` (genomic.py lines 306-373).
A pattern is embedded as its list of genomic splice positions; the source
also tags each finished pattern with a splice-type classification (from
the splicing module, which is not under src/) — the classification does
not alter the site lists and no claim refers to it, so it is omitted. -/
def generateSplicingPatterns (t : UsTranscript) : List (List Int) :=
  let exons := sortBy exonLeStart t.exons
  if exons.length < 2 then [[]]
  else
    let reverse := decide (t.strand = STRAND.NEG)
    let patt := (buildSites reverse exons).filter (fun s => s.intact)
    let patt := if reverse then patt.reverse else patt
    let sets := expandBlocks (patt.dropWhile (fun s => s.ty == SiteTy.acceptor)) [[]]
    sets.map (fun q => if reverse then q.reverse else q)

/-! ## Genomic / cDNA conversion (src/mavis/annotate/genomic.py) -/

/-- Pair up a sorted position list: `zip(pos[::2], pos[1::2])`
(genomic.py line 388). -/
def chunkPairs : List Int → List Interval
  | a :: b :: rest => ⟨a, b⟩ :: chunkPairs rest
  | _ => []

/-- `mapping[e] = Interval(l, l + len(e) - 1); l += len(e)`
(genomic.py lines 397-399), building the dict in iteration order. -/
def assignCdna (l : Int) : List Interval → List (Interval × Interval)
  | [] => []
  | e :: rest => (e, ⟨l, l + intervalLen e - 1⟩) :: assignCdna (l + intervalLen e) rest

/-- `UsTranscript._genomic_to_cdna_mapping` (genomic.py lines 380-400):
sort the splicing pattern together with the transcript start and end, pair
the positions into genomic intervals, reverse the interval list on the
negative strand, raise NotSpecifiedError when the strand is unspecified,
then assign consecutive cDNA intervals starting at 1. -/
def genomicToCdnaMapping (t : UsTranscript) (pattern : List Int) :
    Except PyErr (List (Interval × Interval)) :=
  let pos := sortInts (pattern ++ [tStart t, tStop t])
  let gis := chunkPairs pos
  match t.strand with
  | STRAND.POS => Except.ok (assignCdna 1 gis)
  | STRAND.NEG => Except.ok (assignCdna 1 gis.reverse)
  | STRAND.NS => Except.error PyErr.notSpecifiedError

/-- `Interval.convert_pos(mapping, pos, reverse)`.  Modelled from the
spec: mavis/interval.py is not under src/.  The spec: maps a position
through a set of disjoint intervals related by a position-to-position
correspondence table, optionally reversing direction.  Each source
interval corresponds to an equal-length target; a reversed mapping sends
a source's first base to the target's last.  Positions in no source
interval raise an index error. -/
def convertPos (mapping : List (Interval × Interval)) (pos : Int) (reverse : Bool) :
    Except PyErr Int :=
  match mapping.find? (fun kv => intervalContains kv.1 pos) with
  | some kv =>
    Except.ok (if reverse then kv.2.stop - (pos - kv.1.start) else kv.2.start + (pos - kv.1.start))
  | none => Except.error PyErr.indexError

/-- Order used by `sorted(list(mapping.keys()))` (genomic.py line 445):
lexicographic on (start, end), modelling the Interval sort order. -/
def intervalLe (a b : Interval) : Bool :=
  decide (a.start < b.start) || (decide (a.start = b.start) && decide (a.stop ≤ b.stop))

/-- `for ex1, ex2 in zip(exons, exons[1:]): if pos > ex1.end and
pos < ex2.start` (genomic.py lines 453-454): first consecutive pair whose
gap strictly contains `pos`. -/
def findAdj : List Interval → Int → Option (Interval × Interval)
  | x :: y :: rest, pos =>
    if x.stop < pos ∧ pos < y.start then some (x, y) else findAdj (y :: rest) pos
  | _, _ => none

/-- `UsTranscript.convert_genomic_to_nearest_cdna` (genomic.py lines
430-463): build the mapping; if `pos` is inside a sorted exon interval,
convert it with shift 0; otherwise find the intron containing it, convert
the nearer boundary and report the signed genomic distance to it; raise an
IndexError when `pos` is in no exon and no intron. -/
def convertGenomicToNearestCdna (t : UsTranscript) (pos : Int) (pattern : List Int) :
    Except PyErr (Int × Int) :=
  match genomicToCdnaMapping t pattern with
  | Except.error e => Except.error e
  | Except.ok mapping =>
    let exons := sortBy intervalLe (mapping.map Prod.fst)
    let rev := decide (t.strand = STRAND.NEG)
    match exons.find? (fun ex => intervalContains ex pos) with
    | some _ =>
      match convertPos mapping pos rev with
      | Except.error e => Except.error e
      | Except.ok c => Except.ok (c, 0)
    | none =>
      match findAdj exons pos with
      | some (ex1, ex2) =>
        if (pos - ex1.stop).natAbs ≤ (pos - ex2.start).natAbs then
          match convertPos mapping ex1.stop rev with
          | Except.error e => Except.error e
          | Except.ok c =>
            Except.ok (c, if t.strand = STRAND.POS then pos - ex1.stop else ex1.stop - pos)
        else
          match convertPos mapping ex2.start rev with
          | Except.error e => Except.error e
          | Except.ok c =>
            Except.ok (c, if t.strand = STRAND.POS then pos - ex2.start else ex2.start - pos)
      | none => Except.error PyErr.indexError

/-- `UsTranscript.convert_genomic_to_cdna` (genomic.py lines 412-428):
the nearest conversion, raising an IndexError when the shift is nonzero. -/
def convertGenomicToCdna (t : UsTranscript) (pos : Int) (pattern : List Int) :
    Except PyErr Int :=
  match convertGenomicToNearestCdna t pos pattern with
  | Except.error e => Except.error e
  | Except.ok cs => if cs.2 ≠ 0 then Except.error PyErr.indexError else Except.ok cs.1

/-- `UsTranscript.convert_cdna_to_genomic` (genomic.py lines 465-475):
convert through the inverted mapping (`_cdna_to_genomic_mapping`,
lines 402-410, which swaps every pair). -/
def convertCdnaToGenomic (t : UsTranscript) (pos : Int) (pattern : List Int) :
    Except PyErr Int :=
  match genomicToCdnaMapping t pattern with
  | Except.error e => Except.error e
  | Except.ok mapping => convertPos (mapping.map Prod.swap) pos (decide (t.strand = STRAND.NEG))

/-! ## compute_exonic_distance (src/mavis/validate/evidence.py lines 301-335) -/

/-- Whether a spliced transcript's unspliced footprint intersects the query
interval: `transcript.reference_object.position & Interval(start, end)`
(evidence.py line 315). -/
def cedQualifies (s e : Int) (t : UsTranscript) : Bool :=
  intervalOverlaps ⟨tStart t, tStop t⟩ ⟨s, e⟩

/-- The transcript loop of `compute_exonic_distance`.  A non-qualifying
spliced transcript is skipped.  For a qualifying one, the source
(evidence.py lines 317-318) calls
`transcript.convert_genomic_to_nearest_cdna(start, stick_direction=ORIENT.RIGHT, allow_outside=True)`,
but the definitions of that method in this repository
(genomic.py line 609 for Transcript, line 430 for UsTranscript) accept
only a position (plus the splicing pattern), so the keyword arguments make
Python raise a TypeError before any distance is computed.  When no spliced
transcript qualifies, the `exonic`, `mixed` and `inter` candidate lists
all stay empty and the function returns `Interval(end - start)`
(evidence.py line 335), a point interval at the raw genomic distance. -/
def cedGo (s e : Int) : List UsTranscript → Except PyErr Interval
  | [] => Except.ok ⟨e - s, e - s⟩
  | t :: rest => if cedQualifies s e t then Except.error PyErr.typeError else cedGo s e rest

/-- `TranscriptomeEvidence.compute_exonic_distance` (evidence.py lines
301-335).  The iteration
`itertools.chain.from_iterable([t.transcripts for t in transcripts])`
visits one spliced transcript per entry of each unspliced transcript's
`spliced` list. -/
def computeExonicDistance (s e : Int) (ts : List UsTranscript) : Except PyErr Interval :=
  cedGo s e (ts.flatMap (fun t => t.spliced.map (fun _ => t)))

/-! ## predict_transcriptome_breakpoint (mavis/pairing/pairing.py, not under src/) -/

def exonsBefore (exs : List Exon) (p : Int) : List Exon :=
  exs.filter (fun e => decide (e.stop < p))

def exonsAfter (exs : List Exon) (p : Int) : List Exon :=
  exs.filter (fun e => decide (p < e.start))

def maxStop (l : List Exon) : Option Int := (l.map (fun e => e.stop)).max?

def minStart (l : List Exon) : Option Int := (l.map (fun e => e.start)).min?

/-- A candidate breakpoint at a single position, carrying over the input's
reference name, orientation and strand. -/
def mkPointBp (b : Breakpoint) (p : Int) : Breakpoint :=
  ⟨b.chrName, p, p, b.orient, b.strand⟩

/-- Modelled from the spec: `predict_transcriptome_breakpoint` from
mavis/pairing/pairing.py, which is not under src/ (only its tests in
src/tests/integration/test_pairing.py are).  Spec section 4.5: a position
outside the transcript's span fails (the tests expect an AssertionError);
an exonic position with no exon in the orientation's direction yields only
the original breakpoint; an exonic position with an adjacent exon in that
direction yields the original breakpoint and the adjacent exon's boundary;
an intronic position yields exactly the nearest exon boundary in the
orientation's direction.  The candidate order follows the tests: for LEFT
the extended candidate precedes the literal one, for RIGHT it follows it.
The spec gives no semantics for an unspecified orientation, so that case
is modelled as a not-specified error. -/
def predictTranscriptomeBreakpoint (b : Breakpoint) (t : UsTranscript) :
    Except PyErr (List Breakpoint) :=
  let exs := sortBy exonLeStart t.exons
  if decide (b.start < tStart t) || decide (tStop t < b.start) then
    Except.error PyErr.assertionError
  else
    match b.orient with
    | ORIENT.LEFT =>
      match exs.find? (fun e => intervalContains ⟨e.start, e.stop⟩ b.start) with
      | some e =>
        match maxStop (exonsBefore exs e.start) with
        | some p => Except.ok [mkPointBp b p, b]
        | none => Except.ok [b]
      | none =>
        match maxStop (exonsBefore exs b.start) with
        | some p => Except.ok [mkPointBp b p]
        | none => Except.error PyErr.assertionError
    | ORIENT.RIGHT =>
      match exs.find? (fun e => intervalContains ⟨e.start, e.stop⟩ b.start) with
      | some e =>
        match minStart (exonsAfter exs e.stop) with
        | some p => Except.ok [b, mkPointBp b p]
        | none => Except.ok [b]
      | none =>
        match minStart (exonsAfter exs b.start) with
        | some p => Except.ok [mkPointBp b p]
        | none => Except.error PyErr.assertionError
    | ORIENT.NS => Except.error PyErr.notSpecifiedError

/-- Structural invariant of `_genomic_to_cdna_mapping`: target (cDNA)
intervals are consecutive starting at `l`, each the same length as its
valid source interval. -/
inductive ChainFrom : Int → List (Interval × Interval) → Prop
  | nil (l : Int) : ChainFrom l []
  | cons (l : Int) (k v : Interval) (rest : List (Interval × Interval)) :
      k.start ≤ k.stop → v.start = l → v.stop = l + (k.stop - k.start) →
      ChainFrom (l + (k.stop - k.start) + 1) rest → ChainFrom l ((k, v) :: rest)

/-! ## Separated exon chunks: well-formedness of a splicing pattern -/

/-- Decidable well-formedness of a sorted position list, as the claims
about conversion errors need it: even length, each consecutive pair forms
a valid interval, and the gap between two consecutive exon intervals is
nonempty in the weak sense that the next interval starts strictly after
the previous one ends. -/
def sepOk : List Int → Bool
  | [] => true
  | [_] => false
  | [a, b] => decide (a ≤ b)
  | a :: b :: c :: rest => decide (a ≤ b) && decide (b < c) && sepOk (c :: rest)

/-- A list of valid intervals in which each one ends strictly before the
next begins. -/
inductive SepChain : List Interval → Prop
  | nil : SepChain []
  | single (a : Interval) : a.start ≤ a.stop → SepChain [a]
  | cons (a b : Interval) (rest : List Interval) :
      a.start ≤ a.stop → a.stop < b.start → SepChain (b :: rest) →
      SepChain (a :: b :: rest)

/-- Whether a genomic position is exonic under a splicing pattern: it lies
in one of the genomic intervals of the genomic-to-cDNA mapping. -/
def isExonic (t : UsTranscript) (p : List Int) (pos : Int) : Bool :=
  (chunkPairs (sortInts (p ++ [tStart t, tStop t]))).any
    (fun k => intervalContains k pos)

def bC1 : Breakpoint := ⟨"1", 10, 12, ORIENT.LEFT, STRAND.NS⟩

/-! ## Claim C2 -/

def bpC2 : Breakpoint := ⟨"1", 100, 100, ORIENT.LEFT, STRAND.NS⟩

def bC2w : Breakpoint := ⟨"1", 40, 44, ORIENT.LEFT, STRAND.NS⟩

def tC4 : UsTranscript := ⟨[⟨101, 200, true, true⟩, ⟨301, 400, true, true⟩], STRAND.POS, []⟩

/-! ## Claim C6 -/

def tC6 : UsTranscript :=
  ⟨[⟨101, 200, true, true⟩, ⟨301, 400, true, true⟩], STRAND.POS, []⟩

def tC6w : UsTranscript :=
  ⟨[⟨101, 200, true, true⟩, ⟨301, 400, true, true⟩], STRAND.POS, []⟩

/-! ## Claim C7 -/

def tC7 : UsTranscript :=
  ⟨[⟨101, 200, true, true⟩, ⟨301, 400, true, true⟩], STRAND.POS, [[200, 301]]⟩

/-! ## Claim C8 -/

/-- The sites of a pattern read off a list of (donor, acceptor) pairs:
each pair contributes its donor position then its acceptor position. -/
def flatPairs (pairs : List (Site × Site)) : List Int :=
  pairs.flatMap (fun da => [da.1.pos, da.2.pos])

/-- A pattern whose positions come from (donor, acceptor) pairs of sites
drawn from the list `F`. -/
def GoodPat (F : List Site) (q : List Int) : Prop :=
  ∃ pairs : List (Site × Site), q = flatPairs pairs
    ∧ ∀ da ∈ pairs, da.1 ∈ F ∧ da.1.ty = SiteTy.donor
      ∧ da.2 ∈ F ∧ da.2.ty = SiteTy.acceptor

/-- The intact sites of the transcript's site list, in the genomic-order
layout `generate_splicing_patterns` builds before any strand reversal. -/
def intactSites (t : UsTranscript) : List Site :=
  (buildSites (decide (t.strand = STRAND.NEG)) (sortBy exonLeStart t.exons)).filter
    (fun s => s.intact)

def tC8a : UsTranscript := ⟨[⟨101, 200, true, true⟩], STRAND.POS, []⟩

def tC8b : UsTranscript :=
  ⟨[⟨101, 200, true, true⟩, ⟨301, 400, false, true⟩, ⟨501, 600, true, true⟩],
    STRAND.POS, []⟩

/-! ## Claim C9 -/

def tC9 : UsTranscript :=
  ⟨[⟨101, 200, true, true⟩, ⟨301, 400, true, true⟩, ⟨501, 600, true, true⟩], STRAND.POS, []⟩

def b350 : Breakpoint := ⟨"1", 350, 350, ORIENT.LEFT, STRAND.NS⟩
def b150 : Breakpoint := ⟨"1", 150, 150, ORIENT.LEFT, STRAND.NS⟩
def b450 : Breakpoint := ⟨"1", 450, 450, ORIENT.LEFT, STRAND.NS⟩
def b100 : Breakpoint := ⟨"1", 100, 100, ORIENT.RIGHT, STRAND.NS⟩

def tC10 : UsTranscript := ⟨[⟨101, 200, true, true⟩, ⟨301, 400, true, true⟩], STRAND.NS, []⟩

/-! # Theorems -/

theorem insertBy_perm (le : α → α → Bool) (x : α) :
    ∀ l : List α, List.Perm (insertBy le x l) (x :: l) := by
  intro l
  induction l with
  | nil => simp [insertBy]
  | cons y ys ih =>
    simp only [insertBy]
    by_cases h : le x y = true
    · simp [h]
    · simp only [h]
      exact List.Perm.trans (List.Perm.cons y ih) (List.Perm.swap x y ys)

theorem sortBy_perm (le : α → α → Bool) :
    ∀ l : List α, List.Perm (sortBy le l) l := by
  intro l
  induction l with
  | nil => simp [sortBy]
  | cons x xs ih =>
    exact List.Perm.trans (insertBy_perm le x (sortBy le xs)) (List.Perm.cons x ih)

theorem mem_sortBy {le : α → α → Bool} {l : List α} {a : α} :
    a ∈ sortBy le l ↔ a ∈ l :=
  (sortBy_perm le l).mem_iff

theorem sortBy_length (le : α → α → Bool) (l : List α) :
    (sortBy le l).length = l.length :=
  (sortBy_perm le l).length_eq

theorem insertBy_sorted {le : α → α → Bool}
    (htot : ∀ a b, le a b = true ∨ le b a = true)
    (htrans : ∀ a b c, le a b = true → le b c = true → le a c = true)
    (x : α) :
    ∀ l : List α, List.Pairwise (fun a b => le a b = true) l →
      List.Pairwise (fun a b => le a b = true) (insertBy le x l) := by
  intro l
  induction l with
  | nil => intro _; simp [insertBy]
  | cons y ys ih =>
    intro hp
    rcases List.pairwise_cons.mp hp with ⟨hy, hys⟩
    simp only [insertBy]
    by_cases h : le x y = true
    · simp only [h, if_true]
      refine List.pairwise_cons.mpr ⟨?_, hp⟩
      intro b hb
      rcases List.mem_cons.mp hb with hb | hb
      · exact hb ▸ h
      · exact htrans _ _ _ h (hy _ hb)
    · simp only [h, if_false]
      refine List.pairwise_cons.mpr ⟨?_, ih hys⟩
      intro b hb
      have hb' := (insertBy_perm le x ys).mem_iff.mp hb
      rcases List.mem_cons.mp hb' with hb' | hb'
      · subst hb'
        rcases htot b y with h' | h'
        · exact absurd h' h
        · exact h'
      · exact hy _ hb'

theorem sortBy_sorted {le : α → α → Bool}
    (htot : ∀ a b, le a b = true ∨ le b a = true)
    (htrans : ∀ a b c, le a b = true → le b c = true → le a c = true)
    (l : List α) :
    List.Pairwise (fun a b => le a b = true) (sortBy le l) := by
  induction l with
  | nil => simp [sortBy]
  | cons x xs ih => exact insertBy_sorted htot htrans x _ ih

/-- Two sorted lists that are permutations of one another are equal
(antisymmetry supplied explicitly). -/
theorem eq_of_perm_of_sortedBy {r : α → α → Prop}
    (hanti : ∀ a b, r a b → r b a → a = b) :
    ∀ {l₁ l₂ : List α}, List.Perm l₁ l₂ →
      List.Pairwise r l₁ → List.Pairwise r l₂ → l₁ = l₂ := by
  intro l₁
  induction l₁ with
  | nil => intro l₂ hp _ _; simp [hp.nil_eq]
  | cons a t₁ ih =>
    intro l₂ hp h₁ h₂
    cases l₂ with
    | nil => exact absurd hp.symm (by simp)
    | cons b t₂ =>
      have hab : a = b := by
        have hmem : a ∈ b :: t₂ := hp.mem_iff.mp (by simp)
        have hmem' : b ∈ a :: t₁ := hp.mem_iff.mpr (by simp)
        rcases List.mem_cons.mp hmem with h | h
        · exact h
        · rcases List.mem_cons.mp hmem' with h' | h'
          · exact h'.symm
          · exact hanti a b ((List.pairwise_cons.mp h₁).1 b h')
              ((List.pairwise_cons.mp h₂).1 a h)
      subst hab
      have hp' : List.Perm t₁ t₂ := hp.cons_inv
      have := ih hp' (List.pairwise_cons.mp h₁).2 (List.pairwise_cons.mp h₂).2
      simp [this]

theorem mem_listProd {xs : List α} {ys : List β} {p : α × β} :
    p ∈ listProd xs ys ↔ p.1 ∈ xs ∧ p.2 ∈ ys := by
  constructor
  · intro h
    rcases List.mem_flatMap.mp h with ⟨x, hx, hmem⟩
    rcases List.mem_map.mp hmem with ⟨y, hy, hxy⟩
    cases hxy
    exact ⟨hx, hy⟩
  · intro ⟨hx, hy⟩
    exact List.mem_flatMap.mpr ⟨p.1, hx, List.mem_map.mpr ⟨p.2, hy, rfl⟩⟩

theorem foldl_min_le_init (l : List Int) : ∀ x : Int, l.foldl min x ≤ x := by
  induction l with
  | nil => intro x; simp
  | cons y ys ih =>
    intro x
    calc List.foldl min (min x y) ys ≤ min x y := ih (min x y)
    _ ≤ x := min_le_left x y

theorem init_le_foldl_max (l : List Int) : ∀ x : Int, x ≤ l.foldl max x := by
  induction l with
  | nil => intro x; simp
  | cons y ys ih =>
    intro x
    calc x ≤ max x y := le_max_left x y
    _ ≤ List.foldl max (max x y) ys := ih (max x y)

/-! ## Basic facts about the traversal -/

/-- The pure-genomic fallback position is always inside the traversal's
returned interval (it is the first element of the candidate list). -/
theorem traverse_base_bounds (s d : Int) (dir : ORIENT) (ts : List UsTranscript) :
    (traverseExonicDistance s d dir ts).start ≤
      (if dir = ORIENT.LEFT then s - d + 1 else s + d - 1)
    ∧ (if dir = ORIENT.LEFT then s - d + 1 else s + d - 1) ≤
      (traverseExonicDistance s d dir ts).stop := by
  cases dir <;> exact ⟨foldl_min_le_init _ _, init_le_foldl_max _ _⟩

/-- With no transcripts the traversal is the point interval at the
fallback position. -/
theorem traverse_nil (s d : Int) (dir : ORIENT) :
    traverseExonicDistance s d dir [] =
      ⟨if dir = ORIENT.LEFT then s - d + 1 else s + d - 1,
        if dir = ORIENT.LEFT then s - d + 1 else s + d - 1⟩ := by
  cases dir <;> rfl

/-! ## The mapping chain invariant and the conversion round trip -/

theorem intervalContains_iff {i : Interval} {x : Int} :
    intervalContains i x = true ↔ i.start ≤ x ∧ x ≤ i.stop := by
  simp [intervalContains]

theorem chainFrom_assign :
    ∀ (gis : List Interval), (∀ i ∈ gis, i.start ≤ i.stop) →
      ∀ l : Int, ChainFrom l (assignCdna l gis) := by
  intro gis
  induction gis with
  | nil => intro _ l; exact ChainFrom.nil l
  | cons e rest ih =>
    intro hv l
    have he : e.start ≤ e.stop := hv e (by simp)
    have hlen : l + intervalLen e - 1 = l + (e.stop - e.start) := by
      unfold intervalLen; omega
    have hnext : l + intervalLen e = l + (e.stop - e.start) + 1 := by
      unfold intervalLen; omega
    refine ChainFrom.cons l e ⟨l, l + intervalLen e - 1⟩ _ he rfl hlen ?_
    rw [← hnext]
    exact ih (fun i hi => hv i (by simp [hi])) (l + intervalLen e)

theorem chunkPairs_valid :
    ∀ l : List Int, List.Pairwise (fun a b : Int => a ≤ b) l →
      ∀ i ∈ chunkPairs l, i.start ≤ i.stop
  | [], _, i, hi => by simp [chunkPairs] at hi
  | [_], _, i, hi => by simp [chunkPairs] at hi
  | a :: b :: rest, hp, i, hi => by
    rw [show chunkPairs (a :: b :: rest) = ⟨a, b⟩ :: chunkPairs rest from rfl] at hi
    rcases List.mem_cons.mp hi with hi | hi
    · subst hi
      exact (List.pairwise_cons.mp hp).1 b (by simp)
    · exact chunkPairs_valid rest ((List.pairwise_cons.mp (List.pairwise_cons.mp hp).2).2) i hi

theorem sortInts_pairwise (l : List Int) :
    List.Pairwise (fun a b : Int => a ≤ b) (sortInts l) := by
  have htot : ∀ a b : Int, decide (a ≤ b) = true ∨ decide (b ≤ a) = true := by
    intro a b
    rcases le_total a b with h | h
    · exact Or.inl (decide_eq_true h)
    · exact Or.inr (decide_eq_true h)
  have htrans : ∀ a b c : Int, decide (a ≤ b) = true → decide (b ≤ c) = true →
      decide (a ≤ c) = true := by
    intro a b c hab hbc
    exact decide_eq_true (le_trans (of_decide_eq_true hab) (of_decide_eq_true hbc))
  exact (sortBy_sorted htot htrans l).imp (fun hab => of_decide_eq_true hab)

/-- The mapping built by `_genomic_to_cdna_mapping` always satisfies the
chain invariant from cDNA position 1. -/
theorem mapping_chain {t : UsTranscript} {p : List Int}
    {mapping : List (Interval × Interval)}
    (hmap : genomicToCdnaMapping t p = Except.ok mapping) : ChainFrom 1 mapping := by
  have hvalid := chunkPairs_valid _ (sortInts_pairwise (p ++ [tStart t, tStop t]))
  unfold genomicToCdnaMapping at hmap
  cases hst : t.strand with
  | POS =>
    rw [hst] at hmap
    simp only [Except.ok.injEq] at hmap
    rw [← hmap]
    exact chainFrom_assign _ hvalid 1
  | NEG =>
    rw [hst] at hmap
    simp only [Except.ok.injEq] at hmap
    rw [← hmap]
    refine chainFrom_assign _ ?_ 1
    intro i hi
    exact hvalid i (List.mem_reverse.mp hi)
  | NS =>
    rw [hst] at hmap
    exact absurd hmap (by simp)

theorem convertPos_lb :
    ∀ {m : List (Interval × Interval)} {l pos c : Int} {rev : Bool},
      ChainFrom l m → convertPos m pos rev = Except.ok c → l ≤ c := by
  intro m
  induction m with
  | nil =>
    intro l pos c rev _ h
    exact absurd h (by simp [convertPos, List.find?])
  | cons kv rest ih =>
    intro l pos c rev hch h
    obtain ⟨k, v⟩ := kv
    cases hch with
    | cons _ _ _ _ hk hvs hvt hrest =>
      by_cases hc : intervalContains k pos = true
      · unfold convertPos at h
        have hred : List.find? (fun kv : Interval × Interval => intervalContains kv.1 pos)
            ((k, v) :: rest) = some (k, v) := by
          simp [List.find?, hc]
        rw [hred] at h
        simp only [Except.ok.injEq] at h
        rcases intervalContains_iff.mp hc with ⟨h1, h2⟩
        cases rev with
        | false => rw [← h]; simp only [if_neg Bool.false_ne_true]; omega
        | true => rw [← h]; simp only [if_pos rfl]; omega
      · have hcb : intervalContains k pos = false := by
          cases hx : intervalContains k pos
          · rfl
          · exact absurd hx hc
        unfold convertPos at h
        have hred : List.find? (fun kv : Interval × Interval => intervalContains kv.1 pos)
            ((k, v) :: rest) =
            List.find? (fun kv : Interval × Interval => intervalContains kv.1 pos) rest := by
          simp [List.find?, hcb]
        rw [hred] at h
        have := ih hrest h
        omega

theorem convertPos_swap :
    ∀ {m : List (Interval × Interval)} {l pos c : Int} {rev : Bool},
      ChainFrom l m → convertPos m pos rev = Except.ok c →
      convertPos (m.map Prod.swap) c rev = Except.ok pos := by
  intro m
  induction m with
  | nil =>
    intro l pos c rev _ h
    exact absurd h (by simp [convertPos, List.find?])
  | cons kv rest ih =>
    intro l pos c rev hch h
    obtain ⟨k, v⟩ := kv
    cases hch with
    | cons _ _ _ _ hk hvs hvt hrest =>
      by_cases hc : intervalContains k pos = true
      · unfold convertPos at h
        have hred : List.find? (fun kv : Interval × Interval => intervalContains kv.1 pos)
            ((k, v) :: rest) = some (k, v) := by
          simp [List.find?, hc]
        rw [hred] at h
        simp only [Except.ok.injEq] at h
        rcases intervalContains_iff.mp hc with ⟨h1, h2⟩
        have hcv : intervalContains v c = true := by
          apply intervalContains_iff.mpr
          cases rev with
          | false => rw [← h]; simp only [if_neg Bool.false_ne_true]; omega
          | true => rw [← h]; simp only [if_pos rfl]; omega
        unfold convertPos
        rw [show ((k, v) :: rest).map Prod.swap = (v, k) :: rest.map Prod.swap from rfl]
        have hred2 : List.find? (fun kv : Interval × Interval => intervalContains kv.1 c)
            ((v, k) :: rest.map Prod.swap) = some (v, k) := by
          simp [List.find?, hcv]
        rw [hred2]
        simp only [Except.ok.injEq]
        cases rev with
        | false =>
          rw [if_neg Bool.false_ne_true] at h ⊢
          omega
        | true =>
          rw [if_pos rfl] at h ⊢
          omega
      · have hcb : intervalContains k pos = false := by
          cases hx : intervalContains k pos
          · rfl
          · exact absurd hx hc
        unfold convertPos at h
        have hred : List.find? (fun kv : Interval × Interval => intervalContains kv.1 pos)
            ((k, v) :: rest) =
            List.find? (fun kv : Interval × Interval => intervalContains kv.1 pos) rest := by
          simp [List.find?, hcb]
        rw [hred] at h
        have hlb := convertPos_lb hrest h
        have hncv : intervalContains v c = false := by
          cases hx : intervalContains v c
          · rfl
          · rcases intervalContains_iff.mp hx with ⟨hx1, hx2⟩
            omega
        unfold convertPos
        rw [show ((k, v) :: rest).map Prod.swap = (v, k) :: rest.map Prod.swap from rfl]
        have hred2 : List.find? (fun kv : Interval × Interval => intervalContains kv.1 c)
            ((v, k) :: rest.map Prod.swap) =
            List.find? (fun kv : Interval × Interval => intervalContains kv.1 c)
              (rest.map Prod.swap) := by
          simp [List.find?, hncv]
        rw [hred2]
        have hrec := ih hrest h
        unfold convertPos at hrec
        exact hrec

theorem sepChain_of_sepOk : ∀ l : List Int, sepOk l = true → SepChain (chunkPairs l)
  | [], _ => SepChain.nil
  | [_], h => by simp [sepOk] at h
  | [a, b], h => by
    rw [show chunkPairs [a, b] = [⟨a, b⟩] from rfl]
    exact SepChain.single _ (by simpa [sepOk] using h)
  | a :: b :: c :: rest, h => by
    have h' : a ≤ b ∧ b < c ∧ sepOk (c :: rest) = true := by
      simpa [sepOk, Bool.and_eq_true, decide_eq_true_eq, and_assoc] using h
    have hc := sepChain_of_sepOk (c :: rest) h'.2.2
    rw [show chunkPairs (a :: b :: c :: rest) = ⟨a, b⟩ :: chunkPairs (c :: rest) from rfl]
    cases rest with
    | nil => simp [sepOk] at h'
    | cons d rest' =>
      rw [show chunkPairs (c :: d :: rest') = ⟨c, d⟩ :: chunkPairs rest' from rfl] at hc ⊢
      exact SepChain.cons ⟨a, b⟩ ⟨c, d⟩ _ h'.1 h'.2.1 hc

theorem sepChain_head_valid {a : Interval} {l : List Interval}
    (h : SepChain (a :: l)) : a.start ≤ a.stop := by
  cases h with
  | single _ hv => exact hv
  | cons _ _ _ hv _ _ => exact hv

theorem sepChain_tail {a : Interval} {l : List Interval}
    (h : SepChain (a :: l)) : SepChain l := by
  cases h with
  | single _ _ => exact SepChain.nil
  | cons _ _ _ _ _ hrest => exact hrest

theorem sepChain_mem_valid : ∀ {l : List Interval}, SepChain l →
    ∀ x ∈ l, x.start ≤ x.stop := by
  intro l
  induction l with
  | nil => intro _ x hx; simp at hx
  | cons a rest ih =>
    intro h x hx
    rcases List.mem_cons.mp hx with hx | hx
    · exact hx ▸ sepChain_head_valid h
    · exact ih (sepChain_tail h) x hx

theorem sepChain_mem_bounds : ∀ {l : List Interval}, SepChain l → ∀ x ∈ l,
    (∀ c, l.head? = some c → c.start ≤ x.start)
    ∧ (∀ z, l.getLast? = some z → x.stop ≤ z.stop) := by
  intro l
  induction l with
  | nil => intro _ x hx; simp at hx
  | cons a rest ih =>
    intro h x hx
    cases rest with
    | nil =>
      rcases List.mem_cons.mp hx with hx | hx
      · subst hx
        constructor
        · intro c hc; simp at hc; rw [hc]
        · intro z hz; simp at hz; rw [hz]
      · simp at hx
    | cons b rest' =>
      cases h with
      | cons _ _ _ hv hlt hchain =>
        have hbv : b.start ≤ b.stop := sepChain_head_valid hchain
        rcases List.mem_cons.mp hx with hx | hx
        · subst hx
          constructor
          · intro c hc; simp at hc; rw [hc]
          · intro z hz
            rw [List.getLast?_cons_cons] at hz
            have hb := (ih hchain b (by simp)).2 z hz
            omega
        · have hxb := ih hchain x hx
          constructor
          · intro c hc
            simp at hc
            have hbx := hxb.1 b rfl
            have hxv := sepChain_mem_valid hchain x hx
            rw [← hc]
            omega
          · intro z hz
            rw [List.getLast?_cons_cons] at hz
            exact hxb.2 z hz

theorem intervalLe_total (a b : Interval) :
    intervalLe a b = true ∨ intervalLe b a = true := by
  unfold intervalLe
  simp only [Bool.or_eq_true, Bool.and_eq_true, decide_eq_true_eq]
  omega

theorem intervalLe_trans (a b c : Interval) :
    intervalLe a b = true → intervalLe b c = true → intervalLe a c = true := by
  unfold intervalLe
  simp only [Bool.or_eq_true, Bool.and_eq_true, decide_eq_true_eq]
  omega

theorem intervalLe_antisymm (a b : Interval) :
    intervalLe a b = true → intervalLe b a = true → a = b := by
  unfold intervalLe
  simp only [Bool.or_eq_true, Bool.and_eq_true, decide_eq_true_eq]
  intro h1 h2
  have hs : a.start = b.start ∧ a.stop = b.stop := by omega
  cases a; cases b
  simp only [Interval.mk.injEq]
  exact hs

theorem sepChain_pairwise : ∀ {l : List Interval}, SepChain l →
    List.Pairwise (fun a b => intervalLe a b = true) l := by
  intro l
  induction l with
  | nil => intro _; exact List.Pairwise.nil
  | cons a rest ih =>
    intro h
    refine List.pairwise_cons.mpr ⟨?_, ih (sepChain_tail h)⟩
    intro x hx
    cases rest with
    | nil => simp at hx
    | cons b rest' =>
      cases h with
      | cons _ _ _ hv hlt hchain =>
        have hbx := (sepChain_mem_bounds hchain x hx).1 b rfl
        unfold intervalLe
        simp only [Bool.or_eq_true, Bool.and_eq_true, decide_eq_true_eq]
        omega

theorem sepChain_coverage : ∀ {l : List Interval}, SepChain l →
    ∀ {pos : Int} {c z : Interval}, l.head? = some c → l.getLast? = some z →
      c.start ≤ pos → pos ≤ z.stop →
      (∀ k ∈ l, intervalContains k pos = false) →
      ∃ x y, findAdj l pos = some (x, y) := by
  intro l
  induction l with
  | nil => intro _ pos c z hc _ _ _ _; simp at hc
  | cons a rest ih =>
    intro h pos c z hc hz hcp hpz hfalse
    have hca : a = c := by simpa using hc
    subst hca
    have hna := hfalse a (by simp)
    have hagt : a.stop < pos := by
      by_contra hle
      push_neg at hle
      have hct : intervalContains a pos = true := intervalContains_iff.mpr ⟨hcp, hle⟩
      rw [hct] at hna
      exact absurd hna (by simp)
    cases rest with
    | nil =>
      simp at hz
      subst hz
      omega
    | cons b rest' =>
      cases h with
      | cons _ _ _ hv hlt hchain =>
        by_cases hg : a.stop < pos ∧ pos < b.start
        · exact ⟨a, b, by unfold findAdj; rw [if_pos hg]⟩
        · have hbp : b.start ≤ pos := by omega
          rw [List.getLast?_cons_cons] at hz
          obtain ⟨x, y, hxy⟩ := ih hchain rfl hz hbp hpz
            (fun k hk => hfalse k (by simp [hk]))
          exact ⟨x, y, by unfold findAdj; rw [if_neg hg]; exact hxy⟩

theorem findAdj_mem : ∀ (l : List Interval) (pos : Int) (x y : Interval),
    findAdj l pos = some (x, y) → x ∈ l ∧ y ∈ l := by
  intro l
  induction l with
  | nil => intro pos x y hxy; simp [findAdj] at hxy
  | cons a rest ih =>
    intro pos x y hxy
    cases rest with
    | nil => simp [findAdj] at hxy
    | cons b rest' =>
      unfold findAdj at hxy
      by_cases hg : a.stop < pos ∧ pos < b.start
      · rw [if_pos hg] at hxy
        simp only [Option.some.injEq, Prod.mk.injEq] at hxy
        exact ⟨by simp [← hxy.1], by simp [← hxy.2]⟩
      · rw [if_neg hg] at hxy
        have := ih pos x y hxy
        exact ⟨by simp [this.1], by simp [this.2]⟩

theorem findAdj_gap : ∀ (l : List Interval) (pos : Int) (x y : Interval),
    findAdj l pos = some (x, y) → x.stop < pos ∧ pos < y.start := by
  intro l
  induction l with
  | nil => intro pos x y hxy; simp [findAdj] at hxy
  | cons a rest ih =>
    intro pos x y hxy
    cases rest with
    | nil => simp [findAdj] at hxy
    | cons b rest' =>
      unfold findAdj at hxy
      by_cases hg : a.stop < pos ∧ pos < b.start
      · rw [if_pos hg] at hxy
        simp only [Option.some.injEq, Prod.mk.injEq] at hxy
        rw [← hxy.1, ← hxy.2]
        exact hg
      · rw [if_neg hg] at hxy
        exact ih pos x y hxy

theorem assignCdna_keys : ∀ (gis : List Interval) (l : Int),
    (assignCdna l gis).map Prod.fst = gis := by
  intro gis
  induction gis with
  | nil => intro l; rfl
  | cons e rest ih =>
    intro l
    rw [show assignCdna l (e :: rest) =
      (e, ⟨l, l + intervalLen e - 1⟩) :: assignCdna (l + intervalLen e) rest from rfl]
    simp [ih]

theorem mapping_keys_perm {t : UsTranscript} {p : List Int}
    {mapping : List (Interval × Interval)}
    (hmap : genomicToCdnaMapping t p = Except.ok mapping) :
    List.Perm (mapping.map Prod.fst)
      (chunkPairs (sortInts (p ++ [tStart t, tStop t]))) := by
  unfold genomicToCdnaMapping at hmap
  cases hst : t.strand with
  | POS =>
    rw [hst] at hmap
    simp only [Except.ok.injEq] at hmap
    rw [← hmap, assignCdna_keys]
  | NEG =>
    rw [hst] at hmap
    simp only [Except.ok.injEq] at hmap
    rw [← hmap, assignCdna_keys]
    exact List.reverse_perm _
  | NS =>
    rw [hst] at hmap
    exact absurd hmap (by simp)

/-- The exon list `sorted(list(mapping.keys()))` used by the nearest-cDNA
conversion is exactly the sorted chunk list of the pattern, whenever the
chunks are separated. -/
theorem sortKeys_eq {t : UsTranscript} {p : List Int}
    {mapping : List (Interval × Interval)}
    (hmap : genomicToCdnaMapping t p = Except.ok mapping)
    (hsp : SepChain (chunkPairs (sortInts (p ++ [tStart t, tStop t])))) :
    sortBy intervalLe (mapping.map Prod.fst) =
      chunkPairs (sortInts (p ++ [tStart t, tStop t])) := by
  have hperm := (sortBy_perm intervalLe (mapping.map Prod.fst)).trans
    (mapping_keys_perm hmap)
  exact eq_of_perm_of_sortedBy intervalLe_antisymm hperm
    (sortBy_sorted intervalLe_total intervalLe_trans _)
    (sepChain_pairwise hsp)

theorem convertPos_isOk_of_mem :
    ∀ (m : List (Interval × Interval)) (x : Int) (rev : Bool),
      (∃ kv, kv ∈ m ∧ intervalContains kv.1 x = true) →
      ∃ cc, convertPos m x rev = Except.ok cc := by
  intro m
  induction m with
  | nil =>
    intro x rev hex
    obtain ⟨kv, hkv, _⟩ := hex
    simp at hkv
  | cons kv rest ih =>
    intro x rev hex
    by_cases hc : intervalContains kv.1 x = true
    · refine ⟨if rev then kv.2.stop - (x - kv.1.start) else kv.2.start + (x - kv.1.start), ?_⟩
      unfold convertPos
      have hred : List.find? (fun e => intervalContains e.1 x) (kv :: rest) = some kv := by
        simp [List.find?, hc]
      rw [hred]
    · have hcb : intervalContains kv.1 x = false := by
        cases hx : intervalContains kv.1 x
        · rfl
        · exact absurd hx hc
      obtain ⟨kv', hkv', hck'⟩ := hex
      rcases List.mem_cons.mp hkv' with hkv' | hkv'
      · rw [hkv'] at hck'
        rw [hck'] at hcb
        exact absurd hcb (by simp)
      · obtain ⟨cc, hcc⟩ := ih x rev ⟨kv', hkv', hck'⟩
        refine ⟨cc, ?_⟩
        unfold convertPos
        have hred : List.find? (fun e => intervalContains e.1 x) (kv :: rest) =
            List.find? (fun e => intervalContains e.1 x) rest := by
          simp [List.find?, hcb]
        rw [hred]
        unfold convertPos at hcc
        exact hcc

theorem sorted_head_le {x : Int} {xs : List Int}
    (hp : List.Pairwise (fun a b : Int => a ≤ b) (x :: xs)) :
    ∀ y ∈ x :: xs, x ≤ y := by
  intro y hy
  rcases List.mem_cons.mp hy with hy | hy
  · rw [hy]
  · exact (List.pairwise_cons.mp hp).1 y hy

theorem sorted_le_last : ∀ {l : List Int},
    List.Pairwise (fun a b : Int => a ≤ b) l →
    ∀ y ∈ l, ∀ z, l.getLast? = some z → y ≤ z := by
  intro l
  induction l with
  | nil => intro _ y hy; simp at hy
  | cons x xs ih =>
    intro hp y hy z hz
    cases xs with
    | nil =>
      simp at hz hy
      omega
    | cons x' xs' =>
      rw [List.getLast?_cons_cons] at hz
      rcases List.mem_cons.mp hy with hy | hy
      · subst hy
        have hx' : y ≤ x' := (List.pairwise_cons.mp hp).1 x' (by simp)
        have := ih (List.pairwise_cons.mp hp).2 x' (by simp) z hz
        omega
      · exact ih (List.pairwise_cons.mp hp).2 y hy z hz

/-- The last chunk's stop is the last element of an even-length list. -/
theorem chunkPairs_last : ∀ (l : List Int), sepOk l = true →
    (chunkPairs l).getLast?.map (fun i => i.stop) = l.getLast?
  | [], _ => rfl
  | [_], h => by simp [sepOk] at h
  | [a, b], _ => rfl
  | a :: b :: c :: rest, h => by
    have h' : sepOk (c :: rest) = true := by
      have := h
      simp only [sepOk, Bool.and_eq_true] at this
      exact this.2
    have hne : chunkPairs (c :: rest) ≠ [] := by
      cases rest with
      | nil => simp [sepOk] at h'
      | cons d rest' =>
        rw [show chunkPairs (c :: d :: rest') = ⟨c, d⟩ :: chunkPairs rest' from rfl]
        simp
    have hrec := chunkPairs_last (c :: rest) h'
    rw [show chunkPairs (a :: b :: c :: rest) = ⟨a, b⟩ :: chunkPairs (c :: rest) from rfl]
    cases hcp : chunkPairs (c :: rest) with
    | nil => exact absurd hcp hne
    | cons q qs =>
      rw [List.getLast?_cons_cons]
      rw [hcp] at hrec
      rw [hrec]
      rw [show (a :: b :: c :: rest).getLast? = (c :: rest).getLast? from by
        rw [List.getLast?_cons_cons, List.getLast?_cons_cons]]

/-! ## Claim C1 -/

/-- C1: the genome-protocol outer window.  For a LEFT breakpoint it is
`[max(1, start - max_expected_fragment_size - call_error + 1),
 end + call_error + read_length - 1]`; for RIGHT the mirror image; for an
unspecified orientation both edges extend by the full fragment amount —
for every breakpoint and positive read length, call error and fragment
size. -/
theorem C1_genome_outer_window (b : Breakpoint) (frag ce rl : Int)
    (hfrag : 1 ≤ frag) (hce : 1 ≤ ce) (hrl : 1 ≤ rl)
    (hb1 : 1 ≤ b.start) (hb2 : b.start ≤ b.stop) :
    (b.orient = ORIENT.LEFT →
      genomeGenerateWindow b frag ce rl =
        ⟨max 1 (b.start - frag - ce + 1), b.stop + ce + rl - 1⟩)
    ∧ (b.orient = ORIENT.RIGHT →
      genomeGenerateWindow b frag ce rl =
        ⟨max 1 (b.start - ce - rl + 1), b.stop + frag + ce - 1⟩)
    ∧ (b.orient = ORIENT.NS →
      genomeGenerateWindow b frag ce rl =
        ⟨max 1 (b.start - frag - ce + 1), b.stop + frag + ce - 1⟩) := by
  refine ⟨?_, ?_, ?_⟩ <;> intro h <;>
    simp only [genomeGenerateWindow, h] <;>
    refine congrArg₂ Interval.mk rfl ?_ <;> omega

theorem C1_genome_outer_window_witness :
    genomeGenerateWindow bC1 100 2 5 =
      ⟨max 1 (bC1.start - 100 - 2 + 1), bC1.stop + 2 + 5 - 1⟩ :=
  (C1_genome_outer_window bC1 100 2 5 (by decide) (by decide) (by decide)
    (by decide) (by decide)).1 rfl

/-- C2 counterexample: the claim states that under the transcriptome
variant as well, the inner window spans
`[start - (call_error + read_length - 1), end + (call_error + read_length - 1)]`.
With breakpoint `[100, 100]`, call error 1 and read length 2 that would be
`[98, 102]`, but the transcriptome inner window (with no overlapping
transcripts) is `[99, 101]`. -/
theorem C2_inner_window_counterexample :
    transcriptomeInnerWindow bpC2 1 2 [] = ⟨99, 101⟩
    ∧ (⟨99, 101⟩ : Interval) ≠
      ⟨bpC2.start - (1 + 2 - 1), bpC2.stop + (1 + 2 - 1)⟩ := by
  constructor
  · rfl
  · decide

/-- C2 amended: the genome-protocol inner window is the breakpoint
interval extended by `call_error + read_length - 1` on each side with the
start clamped at 1 (as the claim states); the transcriptome-protocol inner
window instead extends by `call_error + read_length - 2` on each side when
no transcript overlaps, carries no clamp at 1, and overlapping transcripts
can only widen it. -/
theorem C2_inner_window_amended (b : Breakpoint) (ce rl : Int)
    (hce : 1 ≤ ce) (hrl : 1 ≤ rl) (hb : b.start ≤ b.stop) :
    genomeInnerWindow b ce rl =
      ⟨max (b.start - (ce + rl - 1)) 1, b.stop + (ce + rl - 1)⟩
    ∧ transcriptomeInnerWindow b ce rl [] =
      ⟨b.start - (ce + rl - 2), b.stop + (ce + rl - 2)⟩
    ∧ ∀ ts : List UsTranscript,
        (transcriptomeInnerWindow b ce rl ts).start ≤ b.start - (ce + rl - 2)
        ∧ b.stop + (ce + rl - 2) ≤ (transcriptomeInnerWindow b ce rl ts).stop := by
  refine ⟨?_, ?_, ?_⟩
  · unfold genomeInnerWindow
    refine congrArg₂ Interval.mk ?_ ?_ <;> omega
  · have hts : transcriptomeInnerWindow b ce rl [] =
        ⟨min (b.stop + (ce + rl - 1) - 1) (b.start - (ce + rl - 1) + 1),
          max (b.stop + (ce + rl - 1) - 1) (b.start - (ce + rl - 1) + 1)⟩ := rfl
    rw [hts]
    refine congrArg₂ Interval.mk ?_ ?_ <;> omega
  · intro ts
    have h1 : (traverseExonicDistance b.start (ce + rl - 1) ORIENT.LEFT ts).start ≤
        b.start - (ce + rl - 1) + 1 :=
      (traverse_base_bounds b.start (ce + rl - 1) ORIENT.LEFT ts).1
    have h2 : b.stop + (ce + rl - 1) - 1 ≤
        (traverseExonicDistance b.stop (ce + rl - 1) ORIENT.RIGHT ts).stop :=
      (traverse_base_bounds b.stop (ce + rl - 1) ORIENT.RIGHT ts).2
    have hstart : (transcriptomeInnerWindow b ce rl ts).start =
        min (traverseExonicDistance b.stop (ce + rl - 1) ORIENT.RIGHT ts).start
          (traverseExonicDistance b.start (ce + rl - 1) ORIENT.LEFT ts).start := rfl
    have hstop : (transcriptomeInnerWindow b ce rl ts).stop =
        max (traverseExonicDistance b.stop (ce + rl - 1) ORIENT.RIGHT ts).stop
          (traverseExonicDistance b.start (ce + rl - 1) ORIENT.LEFT ts).stop := rfl
    constructor
    · rw [hstart]
      have hm := min_le_right
        (traverseExonicDistance b.stop (ce + rl - 1) ORIENT.RIGHT ts).start
        (traverseExonicDistance b.start (ce + rl - 1) ORIENT.LEFT ts).start
      omega
    · rw [hstop]
      have hm := le_max_left
        (traverseExonicDistance b.stop (ce + rl - 1) ORIENT.RIGHT ts).stop
        (traverseExonicDistance b.start (ce + rl - 1) ORIENT.LEFT ts).stop
      omega

theorem C2_inner_window_amended_witness :
    genomeInnerWindow bC2w 2 3 = ⟨max (bC2w.start - (2 + 3 - 1)) 1, bC2w.stop + (2 + 3 - 1)⟩
    ∧ transcriptomeInnerWindow bC2w 2 3 [] =
      ⟨bC2w.start - (2 + 3 - 2), bC2w.stop + (2 + 3 - 2)⟩ :=
  ⟨(C2_inner_window_amended bC2w 2 3 (by decide) (by decide) (by decide)).1,
    (C2_inner_window_amended bC2w 2 3 (by decide) (by decide) (by decide)).2.1⟩

/-! ## Claim C3 -/

/-- C3: with an empty transcript list, `traverse_exonic_distance` is the
point interval at the pure genomic offset (`start - (d - 1)` for LEFT,
`start + (d - 1)` for RIGHT); and for every transcript list the returned
interval contains that no-transcript offset point, so transcripts only
move the interval bounds outward. -/
theorem C3_traverse_monotone (s d : Int) (hd : 1 ≤ d) (ts : List UsTranscript) :
    traverseExonicDistance s d ORIENT.LEFT [] = ⟨s - (d - 1), s - (d - 1)⟩
    ∧ traverseExonicDistance s d ORIENT.RIGHT [] = ⟨s + (d - 1), s + (d - 1)⟩
    ∧ ∀ dir : ORIENT,
        (traverseExonicDistance s d dir ts).start ≤
          (if dir = ORIENT.LEFT then s - (d - 1) else s + (d - 1))
        ∧ (if dir = ORIENT.LEFT then s - (d - 1) else s + (d - 1)) ≤
          (traverseExonicDistance s d dir ts).stop := by
  have harith1 : s - d + 1 = s - (d - 1) := by omega
  have harith2 : s + d - 1 = s + (d - 1) := by omega
  refine ⟨?_, ?_, ?_⟩
  · have h : traverseExonicDistance s d ORIENT.LEFT [] = ⟨s - d + 1, s - d + 1⟩ := rfl
    rw [h, harith1]
  · have h : traverseExonicDistance s d ORIENT.RIGHT [] = ⟨s + d - 1, s + d - 1⟩ := rfl
    rw [h, harith2]
  · intro dir
    have h := traverse_base_bounds s d dir ts
    by_cases hdir : dir = ORIENT.LEFT
    · rw [if_pos hdir] at h ⊢
      rw [← harith1]
      exact h
    · rw [if_neg hdir] at h ⊢
      rw [← harith2]
      exact h

theorem C3_traverse_monotone_witness :
    traverseExonicDistance 10 4 ORIENT.LEFT [] = ⟨10 - (4 - 1), 10 - (4 - 1)⟩ :=
  (C3_traverse_monotone 10 4 (by decide) []).1

/-! ## Claim C4 -/

/-- C4: for a transcript with a specified strand and a splicing pattern
returned by `generate_splicing_patterns`, converting an exonic genomic
position to cDNA (the strict conversion succeeding is exactly what
"exonic under the pattern" means) and back returns the original
position. -/
theorem C4_splicing_roundtrip (t : UsTranscript) (p : List Int) (pos c : Int)
    (hs : t.strand = STRAND.POS ∨ t.strand = STRAND.NEG)
    (hp : p ∈ generateSplicingPatterns t)
    (h : convertGenomicToCdna t pos p = Except.ok c) :
    convertCdnaToGenomic t c p = Except.ok pos := by
  clear hs hp
  have hfa : ∀ (l : List Interval) (x y : Interval),
      findAdj l pos = some (x, y) → x.stop < pos ∧ pos < y.start := by
    intro l
    induction l with
    | nil => intro x y hxy; exact absurd hxy (by simp [findAdj])
    | cons a rest ih =>
      intro x y hxy
      cases rest with
      | nil => exact absurd hxy (by simp [findAdj])
      | cons b rest' =>
        unfold findAdj at hxy
        by_cases hg : a.stop < pos ∧ pos < b.start
        · rw [if_pos hg] at hxy
          simp only [Option.some.injEq, Prod.mk.injEq] at hxy
          rw [← hxy.1, ← hxy.2]
          exact hg
        · rw [if_neg hg] at hxy
          exact ih x y hxy
  unfold convertGenomicToCdna at h
  cases hm : convertGenomicToNearestCdna t pos p with
  | error e =>
    simp only [hm] at h
    exact absurd h (by simp)
  | ok cs =>
    simp only [hm] at h
    by_cases hsh : cs.2 ≠ 0
    · rw [if_pos hsh] at h
      exact absurd h (by simp)
    · rw [if_neg hsh] at h
      simp only [Except.ok.injEq] at h
      push_neg at hsh
      unfold convertGenomicToNearestCdna at hm
      cases hmap : genomicToCdnaMapping t p with
      | error e =>
        simp only [hmap] at hm
        exact absurd hm (by simp)
      | ok mapping =>
        simp only [hmap] at hm
        have hchain := mapping_chain hmap
        cases hfind : List.find? (fun ex => intervalContains ex pos)
            (sortBy intervalLe (List.map Prod.fst mapping)) with
        | some ex =>
          simp only [hfind] at hm
          cases hcp : convertPos mapping pos (decide (t.strand = STRAND.NEG)) with
          | error e =>
            simp only [hcp] at hm
            exact absurd hm (by simp)
          | ok c0 =>
            simp only [hcp, Except.ok.injEq] at hm
            unfold convertCdnaToGenomic
            rw [hmap]
            have hc0 : c0 = c := by rw [← h, ← hm]
            exact convertPos_swap hchain (hc0 ▸ hcp)
        | none =>
          simp only [hfind] at hm
          cases hadj : findAdj (sortBy intervalLe (List.map Prod.fst mapping)) pos with
          | none =>
            simp only [hadj] at hm
            exact absurd hm (by simp)
          | some pair =>
            obtain ⟨ex1, ex2⟩ := pair
            simp only [hadj] at hm
            have hgap := hfa _ ex1 ex2 hadj
            by_cases hnear : (pos - ex1.stop).natAbs ≤ (pos - ex2.start).natAbs
            · rw [if_pos hnear] at hm
              cases hcp : convertPos mapping ex1.stop (decide (t.strand = STRAND.NEG)) with
              | error e =>
                simp only [hcp] at hm
                exact absurd hm (by simp)
              | ok c1 =>
                simp only [hcp, Except.ok.injEq] at hm
                have hs2 : cs.2 = if t.strand = STRAND.POS then pos - ex1.stop
                    else ex1.stop - pos := by rw [← hm]
                rw [hs2] at hsh
                by_cases hps : t.strand = STRAND.POS
                · rw [if_pos hps] at hsh; omega
                · rw [if_neg hps] at hsh; omega
            · rw [if_neg hnear] at hm
              cases hcp : convertPos mapping ex2.start (decide (t.strand = STRAND.NEG)) with
              | error e =>
                simp only [hcp] at hm
                exact absurd hm (by simp)
              | ok c1 =>
                simp only [hcp, Except.ok.injEq] at hm
                have hs2 : cs.2 = if t.strand = STRAND.POS then pos - ex2.start
                    else ex2.start - pos := by rw [← hm]
                rw [hs2] at hsh
                by_cases hps : t.strand = STRAND.POS
                · rw [if_pos hps] at hsh; omega
                · rw [if_neg hps] at hsh; omega

theorem C4_splicing_roundtrip_witness :
    convertGenomicToCdna tC4 150 [200, 301] = Except.ok 50
    ∧ convertCdnaToGenomic tC4 50 [200, 301] = Except.ok 150 :=
  ⟨by decide,
    C4_splicing_roundtrip tC4 [200, 301] 150 50 (Or.inl rfl)
      (by simp [generateSplicingPatterns, expandBlocks, sortBy, insertBy,
        buildSites, buildSitesAux, startSite, stopSite, listProd, sitePairLe,
        siteKeyLt, siteKeyLe, tyVal, exonLeStart, tC4])
      (by decide)⟩

/-! ## Claim C5 -/

/-- C5 counterexample: the transcriptome-protocol outer window can start
below 1.  The breakpoint sits at 500 inside the overlapping transcript
(footprint `[10, 1000]`, exons `(10, 19)` and `(100, 1000)`); with read
length 10, call error 200 and fragment size 300 the genomic extension
amount 500 is re-expressed in exonic units, overshoots the transcript
start while skipping the intron `[20, 99]`, and lands at `10 - 89 = -79`. -/
theorem C5_outer_window_start_counterexample :
    (transcriptomeGenerateWindow ⟨"1", 500, 500, ORIENT.LEFT, STRAND.NS⟩
      [⟨[⟨10, 19, true, true⟩, ⟨100, 1000, true, true⟩], STRAND.POS, []⟩] 10 200 300).start
      = -79 := by
  rfl

/-- C5 amended: the genome-protocol outer window always has start at
least 1 (both edges are clamped with max against 1), and the
transcriptome-protocol outer window equals the genome one — hence also has
start at least 1 — whenever no transcript overlaps the breakpoint; with
overlapping transcripts the re-projected start can drop below 1. -/
theorem C5_outer_window_start_amended (b : Breakpoint) (frag ce rl : Int) :
    1 ≤ (genomeGenerateWindow b frag ce rl).start
    ∧ transcriptomeGenerateWindow b [] rl ce frag = genomeGenerateWindow b frag ce rl
    ∧ 1 ≤ (transcriptomeGenerateWindow b [] rl ce frag).start := by
  have h1 : 1 ≤ (genomeGenerateWindow b frag ce rl).start := by
    unfold genomeGenerateWindow
    cases b.orient <;> simp
  exact ⟨h1, rfl, h1⟩

/-- C6 counterexample: the claim states that
`convert_genomic_to_nearest_cdna` never fails.  But position 50 lies
before the span `[101, 400]` of this transcript, is in no exon and no
intron, and the function raises the IndexError of genomic.py line 463.
The same input also refutes the claim's "fails iff intronic" for the
strict variant, since 50 is not in an intron yet the strict conversion
fails too. -/
theorem C6_nearest_total_counterexample :
    convertGenomicToNearestCdna tC6 50 [200, 301] = Except.error PyErr.indexError
    ∧ convertGenomicToCdna tC6 50 [200, 301] = Except.error PyErr.indexError := by
  constructor <;> rfl

/-- C6 amended: for a strand-specified transcript and a well-formed
splicing pattern (sites within the transcript span, sorted chunk
intervals separated — as generated patterns are), the strict conversion
`convert_genomic_to_cdna` succeeds iff the position is exonic under the
pattern (so it fails on intronic positions, as the claim states, but also
on positions outside the span); `convert_genomic_to_nearest_cdna` is not
total: it succeeds iff the position lies within the transcript span, and
when it does return, the shift is 0 iff the position is exonic. -/
theorem C6_conversion_errors_amended (t : UsTranscript) (p : List Int) (pos : Int)
    (hst : t.strand = STRAND.POS ∨ t.strand = STRAND.NEG)
    (hbounds : ∀ x ∈ p, tStart t ≤ x ∧ x ≤ tStop t)
    (hse : tStart t ≤ tStop t)
    (hsep : sepOk (sortInts (p ++ [tStart t, tStop t])) = true) :
    ((∃ cc, convertGenomicToCdna t pos p = Except.ok cc) ↔ isExonic t p pos = true)
    ∧ ((∃ r, convertGenomicToNearestCdna t pos p = Except.ok r) ↔
        (tStart t ≤ pos ∧ pos ≤ tStop t))
    ∧ (∀ cc sh, convertGenomicToNearestCdna t pos p = Except.ok (cc, sh) →
        (sh = 0 ↔ isExonic t p pos = true)) := by
  obtain ⟨mapping, hmap⟩ : ∃ m, genomicToCdnaMapping t p = Except.ok m := by
    rcases hst with h | h
    · exact ⟨_, by unfold genomicToCdnaMapping; rw [h]⟩
    · exact ⟨_, by unfold genomicToCdnaMapping; rw [h]⟩
  have hsp : SepChain (chunkPairs (sortInts (p ++ [tStart t, tStop t]))) :=
    sepChain_of_sepOk _ hsep
  have hkeys := sortKeys_eq hmap hsp
  have hperm := mapping_keys_perm hmap
  have hSsorted := sortInts_pairwise (p ++ [tStart t, tStop t])
  have hsmem : tStart t ∈ sortInts (p ++ [tStart t, tStop t]) :=
    (sortBy_perm _ _).mem_iff.mpr (by simp)
  have hemem : tStop t ∈ sortInts (p ++ [tStart t, tStop t]) :=
    (sortBy_perm _ _).mem_iff.mpr (by simp)
  have hallS : ∀ y ∈ sortInts (p ++ [tStart t, tStop t]),
      tStart t ≤ y ∧ y ≤ tStop t := by
    intro y hy
    have hy' : y ∈ p ++ [tStart t, tStop t] := (sortBy_perm _ _).mem_iff.mp hy
    rcases List.mem_append.mp hy' with h | h
    · exact hbounds y h
    · rcases List.mem_cons.mp h with h | h
      · rw [h]; exact ⟨le_refl _, hse⟩
      · simp at h
        rw [h]
        exact ⟨hse, le_refl _⟩
  obtain ⟨a, tail, hS⟩ : ∃ a tail, sortInts (p ++ [tStart t, tStop t]) = a :: tail := by
    cases hSc : sortInts (p ++ [tStart t, tStop t]) with
    | nil => rw [hSc] at hsmem; simp at hsmem
    | cons a tail => exact ⟨a, tail, rfl⟩
  have hhead : a = tStart t := by
    have h1 : a ≤ tStart t := sorted_head_le (hS ▸ hSsorted) _ (hS ▸ hsmem)
    have h2 := (hallS a (by rw [hS]; simp)).1
    omega
  obtain ⟨z, hz⟩ : ∃ z, (sortInts (p ++ [tStart t, tStop t])).getLast? = some z := by
    cases hzc : (sortInts (p ++ [tStart t, tStop t])).getLast? with
    | none =>
      rw [List.getLast?_eq_none_iff] at hzc
      rw [hzc] at hsmem
      simp at hsmem
    | some z => exact ⟨z, rfl⟩
  have hlast : z = tStop t := by
    have h1 : tStop t ≤ z := sorted_le_last hSsorted _ hemem z hz
    have h2 := (hallS z (List.mem_of_mem_getLast? hz)).2
    omega
  obtain ⟨b, tail2, htail⟩ : ∃ b tail2, tail = b :: tail2 := by
    cases tail with
    | nil => rw [hS] at hsep; simp [sepOk] at hsep
    | cons b t2 => exact ⟨b, t2, rfl⟩
  have hchunks : chunkPairs (sortInts (p ++ [tStart t, tStop t])) =
      ⟨a, b⟩ :: chunkPairs tail2 := by
    rw [hS, htail]
    rfl
  obtain ⟨zc, hzc, hzcstop⟩ :
      ∃ zc, (chunkPairs (sortInts (p ++ [tStart t, tStop t]))).getLast? = some zc
        ∧ zc.stop = z := by
    have hchlast := chunkPairs_last _ hsep
    rw [hz] at hchlast
    cases hx : (chunkPairs (sortInts (p ++ [tStart t, tStop t]))).getLast? with
    | none => rw [hx] at hchlast; simp at hchlast
    | some zc =>
      rw [hx] at hchlast
      simp at hchlast
      exact ⟨zc, rfl, hchlast⟩
  have hlb : ∀ k ∈ chunkPairs (sortInts (p ++ [tStart t, tStop t])),
      tStart t ≤ k.start := by
    intro k hk
    have hh := (sepChain_mem_bounds hsp k hk).1 ⟨a, b⟩ (by rw [hchunks]; rfl)
    simp only [] at hh
    omega
  have hub : ∀ k ∈ chunkPairs (sortInts (p ++ [tStart t, tStop t])),
      k.stop ≤ tStop t := by
    intro k hk
    have hh := (sepChain_mem_bounds hsp k hk).2 zc hzc
    omega
  have hmemmap : ∀ k ∈ chunkPairs (sortInts (p ++ [tStart t, tStop t])),
      ∃ kv, kv ∈ mapping ∧ kv.1 = k := by
    intro k hk
    have hkm : k ∈ mapping.map Prod.fst := hperm.mem_iff.mpr hk
    rcases List.mem_map.mp hkm with ⟨kv, hkv, hfst⟩
    exact ⟨kv, hkv, hfst⟩
  by_cases hex : isExonic t p pos = true
  · -- exonic scenario
    obtain ⟨k0, hk0, hk0c⟩ := List.any_eq_true.mp (by unfold isExonic at hex; exact hex)
    obtain ⟨ex, hfindeq⟩ : ∃ ex, List.find? (fun e => intervalContains e pos)
        (sortBy intervalLe (mapping.map Prod.fst)) = some ex := by
      rw [hkeys]
      cases hf : List.find? (fun e => intervalContains e pos)
          (chunkPairs (sortInts (p ++ [tStart t, tStop t]))) with
      | none =>
        have := List.find?_eq_none.mp hf k0 hk0
        rw [hk0c] at this
        exact absurd this (by simp)
      | some ex => exact ⟨ex, rfl⟩
    obtain ⟨kv, hkv, hkfst⟩ := hmemmap k0 hk0
    obtain ⟨c0, hcp⟩ := convertPos_isOk_of_mem mapping pos
      (decide (t.strand = STRAND.NEG)) ⟨kv, hkv, by rw [hkfst]; exact hk0c⟩
    have hres : convertGenomicToNearestCdna t pos p = Except.ok (c0, 0) := by
      unfold convertGenomicToNearestCdna
      simp only [hmap, hfindeq, hcp]
    have hspan : tStart t ≤ pos ∧ pos ≤ tStop t := by
      rcases intervalContains_iff.mp hk0c with ⟨h1, h2⟩
      have := hlb k0 hk0
      have := hub k0 hk0
      exact ⟨by omega, by omega⟩
    refine ⟨?_, ?_, ?_⟩
    · refine ⟨fun _ => hex, fun _ => ⟨c0, ?_⟩⟩
      unfold convertGenomicToCdna
      simp only [hres]
      simp
    · exact ⟨fun _ => hspan, fun _ => ⟨(c0, 0), hres⟩⟩
    · intro cc sh hok
      rw [hres] at hok
      simp only [Except.ok.injEq, Prod.mk.injEq] at hok
      exact ⟨fun _ => hex, fun _ => hok.2.symm⟩
  · -- non-exonic scenarios
    have hexf : isExonic t p pos = false := by
      cases hx : isExonic t p pos
      · rfl
      · exact absurd hx hex
    have hallfalse : ∀ k ∈ chunkPairs (sortInts (p ++ [tStart t, tStop t])),
        intervalContains k pos = false := by
      intro k hk
      have hall := List.any_eq_false.mp (by unfold isExonic at hexf; exact hexf) k hk
      cases hx : intervalContains k pos
      · rfl
      · exact absurd hx hall
    have hfindnone : List.find? (fun e => intervalContains e pos)
        (sortBy intervalLe (mapping.map Prod.fst)) = none := by
      rw [hkeys]
      refine List.find?_eq_none.mpr ?_
      intro x hx
      rw [hallfalse x hx]
      simp
    by_cases hspan : tStart t ≤ pos ∧ pos ≤ tStop t
    · -- intronic scenario
      obtain ⟨x, y, hadj⟩ := @sepChain_coverage
        (chunkPairs (sortInts (p ++ [tStart t, tStop t]))) hsp pos ⟨a, b⟩ zc
        (by rw [hchunks]; rfl) hzc (by simp only []; omega) (by omega) hallfalse
      have hgap := findAdj_gap _ pos x y hadj
      have hxmem := (findAdj_mem _ pos x y hadj).1
      have hymem := (findAdj_mem _ pos x y hadj).2
      have hxv := sepChain_mem_valid hsp x hxmem
      have hyv := sepChain_mem_valid hsp y hymem
      have hadj' : findAdj (sortBy intervalLe (mapping.map Prod.fst)) pos = some (x, y) := by
        rw [hkeys]
        exact hadj
      obtain ⟨kvx, hkvx, hkvxf⟩ := hmemmap x hxmem
      obtain ⟨c1, hcp1⟩ := convertPos_isOk_of_mem mapping x.stop
        (decide (t.strand = STRAND.NEG))
        ⟨kvx, hkvx, by rw [hkvxf]; exact intervalContains_iff.mpr ⟨hxv, le_refl _⟩⟩
      obtain ⟨kvy, hkvy, hkvyf⟩ := hmemmap y hymem
      obtain ⟨c2, hcp2⟩ := convertPos_isOk_of_mem mapping y.start
        (decide (t.strand = STRAND.NEG))
        ⟨kvy, hkvy, by rw [hkvyf]; exact intervalContains_iff.mpr ⟨le_refl _, hyv⟩⟩
      by_cases hnear : (pos - x.stop).natAbs ≤ (pos - y.start).natAbs
      · have hres : convertGenomicToNearestCdna t pos p =
            Except.ok (c1, if t.strand = STRAND.POS then pos - x.stop else x.stop - pos) := by
          unfold convertGenomicToNearestCdna
          simp only [hmap, hfindnone, hadj', if_pos hnear, hcp1]
        have hshne : (if t.strand = STRAND.POS then pos - x.stop else x.stop - pos) ≠ 0 := by
          by_cases hp : t.strand = STRAND.POS
          · rw [if_pos hp]; omega
          · rw [if_neg hp]; omega
        refine ⟨?_, ?_, ?_⟩
        · constructor
          · rintro ⟨cc, hcc⟩
            unfold convertGenomicToCdna at hcc
            simp only [hres] at hcc
            rw [if_pos hshne] at hcc
            exact absurd hcc (by simp)
          · intro hx
            rw [hexf] at hx
            exact absurd hx (by simp)
        · exact ⟨fun _ => hspan, fun _ => ⟨_, hres⟩⟩
        · intro cc sh hok
          rw [hres] at hok
          simp only [Except.ok.injEq, Prod.mk.injEq] at hok
          constructor
          · intro hsh0
            rw [hsh0] at hok
            exact absurd hok.2 hshne
          · intro hx
            rw [hexf] at hx
            exact absurd hx (by simp)
      · have hres : convertGenomicToNearestCdna t pos p =
            Except.ok (c2, if t.strand = STRAND.POS then pos - y.start else y.start - pos) := by
          unfold convertGenomicToNearestCdna
          simp only [hmap, hfindnone, hadj', if_neg hnear, hcp2]
        have hshne : (if t.strand = STRAND.POS then pos - y.start else y.start - pos) ≠ 0 := by
          by_cases hp : t.strand = STRAND.POS
          · rw [if_pos hp]; omega
          · rw [if_neg hp]; omega
        refine ⟨?_, ?_, ?_⟩
        · constructor
          · rintro ⟨cc, hcc⟩
            unfold convertGenomicToCdna at hcc
            simp only [hres] at hcc
            rw [if_pos hshne] at hcc
            exact absurd hcc (by simp)
          · intro hx
            rw [hexf] at hx
            exact absurd hx (by simp)
        · exact ⟨fun _ => hspan, fun _ => ⟨_, hres⟩⟩
        · intro cc sh hok
          rw [hres] at hok
          simp only [Except.ok.injEq, Prod.mk.injEq] at hok
          constructor
          · intro hsh0
            rw [hsh0] at hok
            exact absurd hok.2 hshne
          · intro hx
            rw [hexf] at hx
            exact absurd hx (by simp)
    · -- outside-span scenario
      have hadjnone : findAdj (sortBy intervalLe (mapping.map Prod.fst)) pos = none := by
        rw [hkeys]
        cases hx : findAdj (chunkPairs (sortInts (p ++ [tStart t, tStop t]))) pos with
        | none => rfl
        | some pr =>
          obtain ⟨x, y⟩ := pr
          have hgap := findAdj_gap _ pos x y hx
          have hxm := (findAdj_mem _ pos x y hx).1
          have hym := (findAdj_mem _ pos x y hx).2
          have h1 := hlb x hxm
          have h2 := hub y hym
          have hxv := sepChain_mem_valid hsp x hxm
          have hyv := sepChain_mem_valid hsp y hym
          exact absurd ⟨by omega, by omega⟩ hspan
      have hres : convertGenomicToNearestCdna t pos p = Except.error PyErr.indexError := by
        unfold convertGenomicToNearestCdna
        simp only [hmap, hfindnone, hadjnone]
      refine ⟨?_, ?_, ?_⟩
      · constructor
        · rintro ⟨cc, hcc⟩
          unfold convertGenomicToCdna at hcc
          simp only [hres] at hcc
          exact absurd hcc (by simp)
        · intro hx
          rw [hexf] at hx
          exact absurd hx (by simp)
      · constructor
        · rintro ⟨r, hr⟩
          rw [hres] at hr
          exact absurd hr (by simp)
        · intro hsp'
          exact absurd hsp' hspan
      · intro cc sh hok
        rw [hres] at hok
        exact absurd hok (by simp)

theorem C6_conversion_errors_amended_witness :
    ((∃ cc, convertGenomicToCdna tC6w 150 [200, 301] = Except.ok cc) ↔
      isExonic tC6w [200, 301] 150 = true)
    ∧ ((∃ r, convertGenomicToNearestCdna tC6w 150 [200, 301] = Except.ok r) ↔
        (tStart tC6w ≤ 150 ∧ 150 ≤ tStop tC6w)) :=
  ⟨(C6_conversion_errors_amended tC6w [200, 301] 150 (Or.inl rfl) (by decide)
      (by decide) (by decide)).1,
    (C6_conversion_errors_amended tC6w [200, 301] 150 (Or.inl rfl) (by decide)
      (by decide) (by decide)).2.1⟩

/-- C7: `compute_exonic_distance` crashes whenever any overlapping spliced
transcript exists.  Here the transcript footprint `[101, 400]` intersects
the query `[150, 350]`, so the source reaches
`transcript.convert_genomic_to_nearest_cdna(start, stick_direction=ORIENT.RIGHT, allow_outside=True)`
(evidence.py lines 317-318), whose target accepts no such keyword
arguments (genomic.py lines 609-610), and Python raises a TypeError
instead of building the exonic/mixed/intronic candidate sets the claim
describes.  With no qualifying transcript the raw genomic distance
`end - start` is returned, as the claim's fallback clause states. -/
theorem C7_compute_exonic_distance_type_error :
    computeExonicDistance 150 350 [tC7] = Except.error PyErr.typeError
    ∧ computeExonicDistance 150 350 [] = Except.ok ⟨200, 200⟩ := by
  constructor <;> rfl

theorem mem_of_mem_takeWhileB {p : α → Bool} :
    ∀ {l : List α} {a : α}, a ∈ l.takeWhile p → a ∈ l ∧ p a = true := by
  intro l
  induction l with
  | nil => intro a ha; simp [List.takeWhile] at ha
  | cons x xs ih =>
    intro a ha
    by_cases hx : p x = true
    · rw [List.takeWhile_cons_of_pos hx] at ha
      rcases List.mem_cons.mp ha with ha | ha
      · exact ⟨by simp [ha], ha ▸ hx⟩
      · have := ih ha
        exact ⟨by simp [this.1], this.2⟩
    · rw [List.takeWhile_cons_of_neg hx] at ha
      simp at ha

theorem mem_of_mem_dropWhileB {p : α → Bool} :
    ∀ {l : List α} {a : α}, a ∈ l.dropWhile p → a ∈ l := by
  intro l
  induction l with
  | nil => intro a ha; simp [List.dropWhile] at ha
  | cons x xs ih =>
    intro a ha
    by_cases hx : p x = true
    · rw [List.dropWhile_cons_of_pos hx] at ha
      exact by simp [ih ha]
    · rw [List.dropWhile_cons_of_neg hx] at ha
      exact ha

theorem goodPat_append {F : List Site} {cur : List Int} {d a : Site}
    (hcur : GoodPat F cur) (hdF : d ∈ F) (hdty : d.ty = SiteTy.donor)
    (haF : a ∈ F) (haty : a.ty = SiteTy.acceptor) :
    GoodPat F (cur ++ [d.pos, a.pos]) := by
  obtain ⟨pairs, hflat, hmem⟩ := hcur
  refine ⟨pairs ++ [(d, a)], ?_, ?_⟩
  · rw [hflat]
    unfold flatPairs
    rw [List.flatMap_append]
    rfl
  · intro da hda
    rcases List.mem_append.mp hda with hda | hda
    · exact hmem da hda
    · simp at hda
      rw [hda]
      exact ⟨hdF, hdty, haF, haty⟩

theorem siteTy_of_beq {x : Site} {ty : SiteTy} (h : (x.ty == ty) = true) : x.ty = ty := by
  cases hx : x.ty <;> cases ty <;> first | rfl | (rw [hx] at h; exact absurd h (by decide))

/-- Every pattern produced by the block expansion from good inputs is a
concatenation of (donor, acceptor) pairs taken from `F`. -/
theorem expandBlocks_spec (F : List Site) :
    ∀ (sites : List Site) (sets : List (List Int)),
      (∀ s ∈ sites, s ∈ F) → (∀ q ∈ sets, GoodPat F q) →
      ∀ q ∈ expandBlocks sites sets, GoodPat F q := by
  intro sites sets
  induction sites, sets using expandBlocks.induct with
  | case1 sets =>
    intro _ hsets q hq
    rw [expandBlocks.eq_def] at hq
    exact hsets q hq
  | case2 s rest sets hacc =>
    intro _ hsets q hq
    rw [expandBlocks.eq_def] at hq
    simp only [hacc] at hq
    exact hsets q hq
  | case3 s rest sets hdon donors rest1 acceptors rest2 temp ih =>
    intro hsub hsets q hq
    rw [expandBlocks.eq_def] at hq
    simp only [hdon] at hq
    refine ih ?_ ?_ q ?_
    · intro s' hs'
      exact hsub s' (by
        simp only [List.mem_cons]
        exact Or.inr (mem_of_mem_dropWhileB (mem_of_mem_dropWhileB hs')))
    · intro q' hq'
      by_cases hemp : (((sortBy sitePairLe (listProd
          (s :: rest.takeWhile (fun x => x.ty == SiteTy.donor))
          ((rest.dropWhile (fun x => x.ty == SiteTy.donor)).takeWhile
            (fun x => x.ty == SiteTy.acceptor)))).flatMap
          (fun da => sets.map (fun cur => cur ++ [da.1.pos, da.2.pos]))).isEmpty) = true
      · rw [dif_pos hemp] at hq'
        exact hsets q' hq'
      · rw [dif_neg hemp] at hq'
        rcases List.mem_flatMap.mp hq' with ⟨da, hda, hmemq⟩
        rcases List.mem_map.mp hmemq with ⟨cur, hcur, hcureq⟩
        have hdap := mem_sortBy.mp hda
        have hprod := mem_listProd.mp hdap
        have hd : da.1 ∈ s :: rest.takeWhile (fun x => x.ty == SiteTy.donor) := hprod.1
        have ha := hprod.2
        have hdF : da.1 ∈ F ∧ da.1.ty = SiteTy.donor := by
          rcases List.mem_cons.mp hd with hd | hd
          · exact ⟨hsub _ (by rw [hd]; simp), by rw [hd]; exact hdon⟩
          · have htw := mem_of_mem_takeWhileB hd
            exact ⟨hsub _ (by simp [htw.1]), siteTy_of_beq htw.2⟩
        have haF : da.2 ∈ F ∧ da.2.ty = SiteTy.acceptor := by
          have htw := mem_of_mem_takeWhileB ha
          have hdu := mem_of_mem_dropWhileB htw.1
          exact ⟨hsub _ (by simp [hdu]), siteTy_of_beq htw.2⟩
        rw [← hcureq]
        exact goodPat_append (hsets cur hcur) hdF.1 hdF.2 haF.1 haF.2
    · exact hq

/-- C8: every splicing pattern returned by `generate_splicing_patterns`
consists, in transcription order, of (donor, acceptor) pairs of sites
whose intact flag is set — so it has an even number of positions,
alternating donor then acceptor, and abrogated sites never appear; and a
transcript with at most one exon produces exactly one pattern, with an
empty site list. -/
theorem C8_splicing_pattern_invariants (t : UsTranscript) :
    (t.exons.length ≤ 1 → generateSplicingPatterns t = [[]])
    ∧ ∀ q ∈ generateSplicingPatterns t,
        ∃ pairs : List (Site × Site),
          (if t.strand = STRAND.NEG then q.reverse else q) = flatPairs pairs
          ∧ ∀ da ∈ pairs,
              da.1 ∈ intactSites t ∧ da.1.ty = SiteTy.donor ∧ da.1.intact = true
              ∧ da.2 ∈ intactSites t ∧ da.2.ty = SiteTy.acceptor ∧ da.2.intact = true := by
  constructor
  · intro hlen
    have hl2 : (sortBy exonLeStart t.exons).length < 2 := by
      rw [sortBy_length]
      omega
    unfold generateSplicingPatterns
    rw [if_pos hl2]
  · intro q hq
    unfold generateSplicingPatterns at hq
    by_cases hlen : (sortBy exonLeStart t.exons).length < 2
    · rw [if_pos hlen] at hq
      simp at hq
      refine ⟨[], ?_, by simp⟩
      rw [hq]
      by_cases hneg : t.strand = STRAND.NEG
      · rw [if_pos hneg]; rfl
      · rw [if_neg hneg]; rfl
    · rw [if_neg hlen] at hq
      simp only [] at hq
      obtain ⟨q0, hq0, hqeq⟩ := List.mem_map.mp hq
      have hgood := expandBlocks_spec
        (if decide (t.strand = STRAND.NEG)
          then ((buildSites (decide (t.strand = STRAND.NEG))
            (sortBy exonLeStart t.exons)).filter (fun s => s.intact)).reverse
          else (buildSites (decide (t.strand = STRAND.NEG))
            (sortBy exonLeStart t.exons)).filter (fun s => s.intact))
        _ [[]]
        (fun s hs => mem_of_mem_dropWhileB hs)
        (by
          intro q' hq'
          simp at hq'
          rw [hq']
          exact ⟨[], rfl, by simp⟩)
        q0 hq0
      obtain ⟨pairs, hflat, hmem⟩ := hgood
      refine ⟨pairs, ?_, ?_⟩
      · by_cases hneg : t.strand = STRAND.NEG
        · rw [if_pos hneg]
          rw [hneg] at hqeq
          simp only [decide_eq_true_eq, if_pos rfl] at hqeq
          rw [← hqeq]
          simp [hflat]
        · rw [if_neg hneg]
          have hrev : decide (t.strand = STRAND.NEG) = false := by
            simp [hneg]
          rw [hrev] at hqeq
          simp only [Bool.false_eq_true, if_false] at hqeq
          rw [← hqeq]
          exact hflat
      · intro da hda
        have hpm := hmem da hda
        have htrans : ∀ x : Site,
            (x ∈ (if decide (t.strand = STRAND.NEG)
              then ((buildSites (decide (t.strand = STRAND.NEG))
                (sortBy exonLeStart t.exons)).filter (fun s => s.intact)).reverse
              else (buildSites (decide (t.strand = STRAND.NEG))
                (sortBy exonLeStart t.exons)).filter (fun s => s.intact))) →
            x ∈ intactSites t ∧ x.intact = true := by
          intro x hx
          have hxf : x ∈ (buildSites (decide (t.strand = STRAND.NEG))
              (sortBy exonLeStart t.exons)).filter (fun s => s.intact) := by
            by_cases hneg : decide (t.strand = STRAND.NEG) = true
            · rw [if_pos hneg] at hx
              exact List.mem_reverse.mp hx
            · rw [if_neg hneg] at hx
              exact hx
          refine ⟨hxf, ?_⟩
          have := List.mem_filter.mp hxf
          exact this.2
        have hd := htrans da.1 hpm.1
        have ha := htrans da.2 hpm.2.2.1
        exact ⟨hd.1, hpm.2.1, hd.2, ha.1, hpm.2.2.2, ha.2⟩

theorem C8_splicing_pattern_invariants_witness :
    generateSplicingPatterns tC8a = [[]]
    ∧ ∃ pairs : List (Site × Site),
        (if tC8b.strand = STRAND.NEG then [200, 501].reverse else [200, 501]) =
          flatPairs pairs
        ∧ ∀ da ∈ pairs,
            da.1 ∈ intactSites tC8b ∧ da.1.ty = SiteTy.donor ∧ da.1.intact = true
            ∧ da.2 ∈ intactSites tC8b ∧ da.2.ty = SiteTy.acceptor ∧ da.2.intact = true :=
  ⟨(C8_splicing_pattern_invariants tC8a).1 (by decide),
    (C8_splicing_pattern_invariants tC8b).2 [200, 501]
      (by simp [generateSplicingPatterns, expandBlocks, sortBy, insertBy,
        buildSites, buildSitesAux, startSite, stopSite, listProd, sitePairLe,
        siteKeyLt, siteKeyLe, tyVal, exonLeStart, tC8b])⟩

/-- C9 (spec-modelled): on the positive-strand transcript with exons
`(101, 200)`, `(301, 400)`, `(501, 600)`:
a LEFT breakpoint at 350 (exonic, not at the outer boundary) yields
exactly two candidates, one starting at 200 and one equal to the input;
a LEFT breakpoint at 150 (first exon) yields exactly the input;
a LEFT breakpoint at 450 (intronic) yields exactly one candidate at 400;
a RIGHT breakpoint at 100 lies outside the transcript and fails with an
out-of-range (assertion) error. -/
theorem C9_predict_breakpoint_cases :
    (∃ l, predictTranscriptomeBreakpoint b350 tC9 = Except.ok l
      ∧ l.length = 2 ∧ (∃ c ∈ l, c.start = 200) ∧ b350 ∈ l)
    ∧ predictTranscriptomeBreakpoint b150 tC9 = Except.ok [b150]
    ∧ predictTranscriptomeBreakpoint b450 tC9 =
        Except.ok [⟨"1", 400, 400, ORIENT.LEFT, STRAND.NS⟩]
    ∧ predictTranscriptomeBreakpoint b100 tC9 = Except.error PyErr.assertionError := by
  refine ⟨⟨[⟨"1", 200, 200, ORIENT.LEFT, STRAND.NS⟩, b350], ?_, ?_, ?_, ?_⟩, ?_, ?_, ?_⟩ <;>
    decide

/-! ## Claim C10 -/

/-- C10: every conversion of the coordinate model fails with the
NotSpecifiedError raised by `_genomic_to_cdna_mapping` (genomic.py line
395) when the transcript's strand is neither positive nor negative,
independent of the position and splicing pattern. -/
theorem C10_strand_required (t : UsTranscript) (pattern : List Int) (pos : Int)
    (h1 : t.strand ≠ STRAND.POS) (h2 : t.strand ≠ STRAND.NEG) :
    convertGenomicToCdna t pos pattern = Except.error PyErr.notSpecifiedError
    ∧ convertGenomicToNearestCdna t pos pattern = Except.error PyErr.notSpecifiedError
    ∧ convertCdnaToGenomic t pos pattern = Except.error PyErr.notSpecifiedError := by
  have hns : t.strand = STRAND.NS := by
    cases h : t.strand
    · exact absurd h h1
    · exact absurd h h2
    · rfl
  have hmap : genomicToCdnaMapping t pattern = Except.error PyErr.notSpecifiedError := by
    unfold genomicToCdnaMapping
    rw [hns]
  refine ⟨?_, ?_, ?_⟩
  · unfold convertGenomicToCdna convertGenomicToNearestCdna
    rw [hmap]
  · unfold convertGenomicToNearestCdna
    rw [hmap]
  · unfold convertCdnaToGenomic
    rw [hmap]

theorem C10_strand_required_witness :
    convertGenomicToCdna tC10 150 [200, 301] = Except.error PyErr.notSpecifiedError
    ∧ convertGenomicToNearestCdna tC10 150 [200, 301] = Except.error PyErr.notSpecifiedError
    ∧ convertCdnaToGenomic tC10 150 [200, 301] = Except.error PyErr.notSpecifiedError :=
  C10_strand_required tC10 [200, 301] 150 (by decide) (by decide)

end Mavis
